import Mathlib

/-!
Verification of the version_sync utility against its specification.

The development shallowly embeds the Python sources:
  src/version_sync/pyfile.py         (get_pyfile_version, sync_pyfile_version)
  src/version_sync/pyproject_toml.py (get_pyproject_version, sync_pyproject_version)
  src/version_sync/package_json.py   (get_packagejson_version, sync_package_json_version)
  src/version_sync/__main__.py       (parse_versions, sync_versions, main)

Machine-level conventions of the embedding:
  - Strings are Lean String values; a text file is a list of lines, each line
    given without its terminating newline character (the Python code reads
    files with readlines and writes each processed line back with a newline,
    so for files whose every line is newline-terminated this is faithful).
  - packaging.version.Version is modelled for plain numeric releases
    (dot-separated decimal components).  Its comparison key strips trailing
    zero components and compares the remaining tuples lexicographically,
    exactly as packaging computes _cmpkey for release-only versions.
  - Python dicts produced by toml.load and json.load are modelled as
    association lists with unique keys in document order; indexing a missing
    key is modelled as a failed lookup.
-/

namespace VersionSync

/-! ## Version values (model of packaging.version.Version, release-only) -/

/-- A parsed version: the numeric release components, e.g. [1, 10, 0]. -/
structure Version where
  release : List Nat
deriving DecidableEq

/-- Drop trailing zero components, as packaging does to build the comparison
key of a release tuple. -/
def stripTrailingZeros (l : List Nat) : List Nat :=
  (l.reverse.dropWhile (fun n => n = 0)).reverse

/-- The comparison key of a version. -/
def verKey (v : Version) : List Nat :=
  stripTrailingZeros v.release

/-- Lexicographic comparison of release keys (Python tuple comparison). -/
def keyCmp : List Nat → List Nat → Ordering
  | [], [] => Ordering.eq
  | [], _ :: _ => Ordering.lt
  | _ :: _, [] => Ordering.gt
  | a :: as, b :: bs =>
    if a < b then Ordering.lt
    else if b < a then Ordering.gt
    else keyCmp as bs

/-- Comparison of two versions, as packaging orders release-only versions. -/
def verCmp (v w : Version) : Ordering :=
  keyCmp (verKey v) (verKey w)

/-- Strict order on versions (Python Version.__lt__). -/
def verLt (v w : Version) : Bool :=
  decide (verCmp v w = Ordering.lt)

/-- Equality of versions (Python Version.__eq__): equality of keys, so
1.0 equals 1.0.0. -/
def verEq (v w : Version) : Bool :=
  decide (verCmp v w = Ordering.eq)

/-- Non-strict order on versions. -/
def verLe (v w : Version) : Bool :=
  !(decide (verCmp v w = Ordering.gt))

/-- Python max over an iterable of versions: fold keeping the current value
unless a strictly greater one appears. -/
def pyMax (v : Version) (vs : List Version) : Version :=
  vs.foldl (fun acc x => if verLt acc x then x else acc) v

/-- The character of a decimal digit. -/
def digitChar (d : Nat) : Char := Char.ofNat (48 + d)

/-- The numeric value of a decimal digit character. -/
def charDigit (c : Char) : Option Nat :=
  if 48 ≤ c.toNat ∧ c.toNat ≤ 57 then some (c.toNat - 48) else none

/-- Decimal digit chain with explicit fuel bounding the division depth;
most significant digit first. -/
def natReprAux : Nat → Nat → List Char
  | _, 0 => []
  | 0, _ + 1 => []
  | fuel + 1, n + 1 =>
    natReprAux fuel ((n + 1) / 10) ++ [digitChar ((n + 1) % 10)]

/-- Decimal representation of a natural number, most significant digit first. -/
def natRepr (n : Nat) : List Char :=
  if n = 0 then [digitChar 0] else natReprAux n n

/-- Read a decimal numeral, accumulating from the left. -/
def parseNatAcc (acc : Nat) : List Char → Option Nat
  | [] => some acc
  | c :: cs =>
    match charDigit c with
    | some d => parseNatAcc (acc * 10 + d) cs
    | none => none

/-- Read a nonempty decimal numeral. -/
def parseNat (cs : List Char) : Option Nat :=
  match cs with
  | [] => none
  | _ :: _ => parseNatAcc 0 cs

/-- Split a character list at dots (model of Python str.split on a dot). -/
def splitDots : List Char → List (List Char)
  | [] => [[]]
  | c :: cs =>
    if c = '.' then [] :: splitDots cs
    else
      match splitDots cs with
      | [] => [[c]]
      | p :: ps => (c :: p) :: ps

/-- Join character lists with dots. -/
def joinDots : List (List Char) → List Char
  | [] => []
  | [p] => p
  | p :: ps => p ++ '.' :: joinDots ps

/-- String form of a version (model of str on a packaging Version with a
plain numeric release). -/
def verToString (v : Version) : String :=
  String.mk (joinDots (v.release.map natRepr))

/-- Parse a dot-separated numeric release list. -/
def parseRelease (cs : List Char) : Option (List Nat) :=
  (splitDots cs).mapM parseNat

/-- Model of packaging Version construction from a string, restricted to
plain numeric releases; any other input is a constructor failure. -/
def parseVersion (s : String) : Option Version :=
  match parseRelease s.data with
  | some parts => some ⟨parts⟩
  | none => none

/-! ## Python AST model (for get_pyfile_version in pyfile.py)

The relevant shape of CPython ast nodes: assignment statements have a list
of targets and a value; targets that are plain names carry an identifier;
values are either constants (with a value attribute) or other expressions
(with no value attribute).  Statements with nested statement lists
(function and class definitions, if, while, for, with, try) are collapsed
to a block holding the concatenation of their statement lists in source
order; all other statements are modelled as simple.  ast.walk is a
breadth-first traversal popping from a queue and appending each popped
node's children, and only statement nodes can be or contain Assign
nodes, so the walk is modelled on statements. -/

/-- An assignment target: a plain name with its identifier, or any other
target shape (tuple, attribute, subscript). -/
inductive PyTarget where
  | name (ident : String)
  | other

/-- An assigned value: a string constant, a non-string constant (modelled by
an integer), or a non-constant expression, which has no value attribute. -/
inductive PyExpr where
  | constStr (s : String)
  | constInt (n : Int)
  | nonConst

/-- A statement: an assignment, a compound statement with a body of nested
statements, or any other simple statement. -/
inductive PyStmt where
  | assign (targets : List PyTarget) (value : PyExpr)
  | block (body : List PyStmt)
  | simple

mutual

/-- Size of a statement, for termination of the breadth-first walk. -/
def stmtSize : PyStmt → Nat
  | PyStmt.assign _ _ => 1
  | PyStmt.simple => 1
  | PyStmt.block body => 1 + stmtSizeList body

/-- Total size of a statement list. -/
def stmtSizeList : List PyStmt → Nat
  | [] => 0
  | s :: rest => stmtSize s + stmtSizeList rest

end

/-- The nested statements of a statement (ast.iter_child_nodes restricted to
statements). -/
def stmtChildren : PyStmt → List PyStmt
  | PyStmt.block body => body
  | _ => []

/-- Breadth-first queue traversal with explicit fuel; the fuel only serves
structural termination and never runs out when it is at least the total
statement size of the queue. -/
def walkFuel : Nat → List PyStmt → List PyStmt
  | _, [] => []
  | 0, q => q
  | n + 1, s :: rest => s :: walkFuel n (rest ++ stmtChildren s)

/-- Model of ast.walk: breadth-first traversal of statements, starting from
the module body, popping from a queue and appending each popped statement's
nested statements. -/
def walkStmts (q : List PyStmt) : List PyStmt :=
  walkFuel (stmtSizeList q) q

/-- Does one of the targets hit a candidate name (the inner loop of
get_pyfile_version: for target in node.targets, isinstance Name and
target.id in pyvars)? -/
def targetHit (pyvars : List String) (tgts : List PyTarget) : Bool :=
  tgts.any (fun t =>
    match t with
    | PyTarget.name ident => pyvars.contains ident
    | PyTarget.other => false)

/-- The constant value of an assignment, as returned by get_pyfile_version. -/
inductive PyVal where
  | str (s : String)
  | int (n : Int)
deriving DecidableEq

/-- Outcomes of get_pyfile_version on a parsed tree: the clean missing-version
exit, or the unhandled AttributeError raised by node.value.value when the
assigned value is not a constant. -/
inductive PyErr where
  | notFound
  | attributeError
deriving DecidableEq

/-- Reading node.value.value: constants expose their value; any other
expression raises AttributeError. -/
def constValue : PyExpr → Except PyErr PyVal
  | PyExpr.constStr s => Except.ok (PyVal.str s)
  | PyExpr.constInt n => Except.ok (PyVal.int n)
  | PyExpr.nonConst => Except.error PyErr.attributeError

/-- The walk loop of get_pyfile_version: for the first Assign whose targets
hit a candidate name, return node.value.value. -/
def scanAssigns (pyvars : List String) : List PyStmt → Except PyErr PyVal
  | [] => Except.error PyErr.notFound
  | PyStmt.assign tgts v :: rest =>
    if targetHit pyvars tgts then constValue v else scanAssigns pyvars rest
  | _ :: rest => scanAssigns pyvars rest

/-- Model of get_pyfile_version in pyfile.py, applied to the parsed tree of
an existing, syntactically valid file: walk all statements breadth first
and return the value of the first assignment to a candidate name. -/
def get_pyfile_version (tree : List PyStmt) (pyvars : List String) : Except PyErr PyVal :=
  scanAssigns pyvars (walkStmts tree)

/-- Is a statement an assignment with some target among the candidates? -/
def isCandidateAssign (pyvars : List String) : PyStmt → Bool
  | PyStmt.assign tgts _ => targetHit pyvars tgts
  | _ => false

/-- The value of the first candidate assignment of a statement sequence. -/
def firstCandidateResult (pyvars : List String) (l : List PyStmt) : Except PyErr PyVal :=
  match l.find? (isCandidateAssign pyvars) with
  | some (PyStmt.assign _ v) => constValue v
  | _ => Except.error PyErr.notFound

/-- Reading as described word for word by the specification of the
source-text accessor: the first top-level (module-scope) assignment, in
textual order, whose target is a candidate name and whose value is a plain
string literal; NotFound when no such assignment exists. -/
def specPyRead (tree : List PyStmt) (pyvars : List String) : Except PyErr String :=
  match tree.find? (fun s =>
    match s with
    | PyStmt.assign tgts (PyExpr.constStr _) => targetHit pyvars tgts
    | _ => false) with
  | some (PyStmt.assign _ (PyExpr.constStr s)) => Except.ok s
  | _ => Except.error PyErr.notFound

/-! ## TOML and JSON documents (pyproject_toml.py and package_json.py)

Parsed TOML and JSON documents are association lists in document order.
Python dict indexing, membership and assignment are modelled by assocFind,
its isSome, and dictSet.  The membership chains guarding the TOML writer
("tool" in data and "poetry" in data["tool"] and "version" in
data["tool"]["poetry"]) are modelled by the isSome of the corresponding
lookup chain; this is the Python behaviour on every document whose tool,
tool.poetry and project entries, when present, are tables, which parsed
pyproject documents are. -/

/-- A TOML value: a string, an integer, or a nested table. -/
inductive TomlVal where
  | str (s : String)
  | int (n : Int)
  | table (kvs : List (String × TomlVal))

/-- A parsed TOML document: its top-level table. -/
def TomlDoc := List (String × TomlVal)

/-- First association of a key (Python dict lookup; parsed dicts have unique
keys). -/
def assocFind : List (String × α) → String → Option α
  | [], _ => none
  | (k, v) :: rest, key => if k = key then some v else assocFind rest key

/-- Apply a function to the value stored at a key, when present, keeping
every entry in place. -/
def setInTable : List (String × α) → String → (α → α) → List (String × α)
  | [], _, _ => []
  | (k, v) :: rest, key, f =>
    (if k = key then (k, f v) else (k, v)) :: setInTable rest key f

/-- Python dict assignment d at key becomes v: replace in place when the key
exists, append at the end otherwise. -/
def dictSet (kvs : List (String × α)) (key : String) (v : α) : List (String × α) :=
  if (assocFind kvs key).isSome then setInTable kvs key (fun _ => v)
  else kvs ++ [(key, v)]

/-- Index one level into a table value. -/
def tableFind (v : TomlVal) (key : String) : Option TomlVal :=
  match v with
  | TomlVal.table kvs => assocFind kvs key
  | _ => none

/-- Apply a function to the entries of a table value. -/
def onTable (f : List (String × TomlVal) → List (String × TomlVal)) : TomlVal → TomlVal
  | TomlVal.table kvs => TomlVal.table (f kvs)
  | x => x

/-- The value at tool.poetry.version, when that chain of tables exists. -/
def lookupPoetryVersion (doc : TomlDoc) : Option TomlVal :=
  (assocFind doc "tool").bind (fun t => (tableFind t "poetry").bind (fun p => tableFind p "version"))

/-- The value at project.version, when that chain of tables exists. -/
def lookupProjectVersion (doc : TomlDoc) : Option TomlVal :=
  (assocFind doc "project").bind (fun p => tableFind p "version")

/-- Assignment data at tool, poetry, version becomes the new version string. -/
def setPoetryVersion (doc : TomlDoc) (newVersion : String) : TomlDoc :=
  setInTable doc "tool" (onTable (fun t =>
    setInTable t "poetry" (onTable (fun p =>
      dictSet p "version" (TomlVal.str newVersion)))))

/-- Assignment data at project, version becomes the new version string. -/
def setProjectVersion (doc : TomlDoc) (newVersion : String) : TomlDoc :=
  setInTable doc "project" (onTable (fun p =>
    dictSet p "version" (TomlVal.str newVersion)))

/-- Failure of the TOML reader: no version key, naming the path. -/
inductive TomlErr where
  | notFound (path : String)
deriving DecidableEq

/-- Model of get_pyproject_version in pyproject_toml.py, applied to an
existing, valid parsed document: try tool.poetry.version, fall back to
project.version, otherwise exit with the missing-version error naming the
path. -/
def get_pyproject_version (path : String) (doc : TomlDoc) : Except TomlErr TomlVal :=
  match lookupPoetryVersion doc with
  | some v => Except.ok v
  | none =>
    match lookupProjectVersion doc with
    | some v => Except.ok v
    | none => Except.error (TomlErr.notFound path)

/-- Model of sync_pyproject_version in pyproject_toml.py on the parsed
document: set tool.poetry.version when that table chain holds a version
key, then independently set project.version when present; the Bool is the
warning emitted when neither existed (the document is then returned
unchanged; the re-serialization that rewrites the file is outside the
document model, as the specification only promises preservation up to
TOML serializer normalization). -/
def sync_pyproject_version (doc : TomlDoc) (newVersion : String) : TomlDoc × Bool :=
  let c1 := (lookupPoetryVersion doc).isSome
  let d1 := if c1 then setPoetryVersion doc newVersion else doc
  let c2 := (lookupProjectVersion d1).isSome
  let d2 := if c2 then setProjectVersion d1 newVersion else d1
  (d2, !(c1 || c2))

/-- A JSON value: a string, a number, or null (nested objects of a
package.json play no role in the version field). -/
inductive JsonVal where
  | str (s : String)
  | num (n : Int)
  | null
deriving DecidableEq

/-- A parsed JSON document: its top-level object. -/
def JsonDoc := List (String × JsonVal)

/-- Failure of the JSON reader: no version key, naming the path. -/
inductive JsonErr where
  | notFound (path : String)
deriving DecidableEq

/-- Model of get_packagejson_version in package_json.py, applied to an
existing, valid parsed document. -/
def get_packagejson_version (path : String) (doc : JsonDoc) : Except JsonErr JsonVal :=
  match assocFind doc "version" with
  | some v => Except.ok v
  | none => Except.error (JsonErr.notFound path)

/-- Model of sync_package_json_version in package_json.py on the parsed
document: data at version becomes str of the version, unconditionally. -/
def sync_package_json_version (doc : JsonDoc) (newVersion : String) : JsonDoc :=
  dictSet doc "version" (JsonVal.str newVersion)

/-! ## Coordinator over a collected report (main in __main__.py)

A collected report is the parsed_versions dict: tracked files, in insertion
order, each with its parsed Version.  File identity and the filename-based
dispatch kind are abstracted into a tracked-file record; version values are
compared with the packaging equality and ordering modelled above. -/

/-- The dispatch kind of a tracked file, decided by main from the filename:
pyproject.toml, package.json, or the .py suffix. -/
inductive FKind where
  | pyprojectToml
  | packageJson
  | pyFile
deriving DecidableEq

/-- A tracked file: an identifier standing for its path, and its kind. -/
structure TFile where
  fid : Nat
  kind : FKind
deriving DecidableEq

/-- The versions of a report, in report order. -/
def reportVersions (report : List (TFile × Version)) : List Version :=
  report.map (fun p => p.2)

/-- Python max over the nonempty dict of parsed versions (main line 88);
none on the empty report, where main has already exited. -/
def highestOf : List (TFile × Version) → Option Version
  | [] => none
  | (_, v) :: rest => some (pyMax v (reportVersions rest))

/-- Model of sync_versions in __main__.py: walk the report in order and,
for every file whose parsed version differs from the highest under
packaging equality, invoke the writer of its kind; the result lists the
files whose writers are invoked, in order. -/
def sync_versions (report : List (TFile × Version)) (highest : Version) : List TFile :=
  match report with
  | [] => []
  | (f, v) :: rest =>
    if verEq v highest then sync_versions rest highest
    else f :: sync_versions rest highest

/-- The number of distinct version values of a report under packaging
equality: the size of the Python set of Version values, whose hash and
equality follow the comparison key. -/
def distinctCount (vs : List Version) : Nat :=
  ((vs.map verKey).dedup).length

/-- Model of the check branch of main (lines 95 through 106): exit code 1
with every file and its version reported when the distinct versions are
not exactly one, exit code 0 with nothing further reported otherwise. -/
def mainCheck (report : List (TFile × Version)) : Nat × List (TFile × Version) :=
  if distinctCount (reportVersions report) ≠ 1 then (1, report) else (0, [])

/-! ## Line rewriting (sync_pyfile_version in pyfile.py)

The writer compiles the pattern
  caret ( whitespace* ( name1 | name2 | ... ) whitespace* equals whitespace* )
  ( quote ) ( lazy any ) ( quote ) ( any* ) dollar
where quote is the character class of the single and double quote, and
applies re.match to every line, replacing a match by group 1, group 3, the
new version, group 3 again, and group 6.  The model works on lines without
their trailing newline.  Alternatives are tried in list order with full
backtracking into the remainder of the pattern; the lazy value group ends
at the first following quote character of either kind, which may differ
from the opening quote.  The leading whitespace run is taken maximal,
which agrees with the regex for every candidate name that does not begin
with a whitespace character (every name reachable from the CLI
semicolon-split of identifiers). -/

/-- The single-quote character. -/
def squote : Char := Char.ofNat 39

/-- The double-quote character. -/
def dquote : Char := Char.ofNat 34

/-- The characters of the Python regex whitespace class (ASCII range). -/
def isPySpace (c : Char) : Bool :=
  c = ' ' || c = '\t' || c = '\n' || c = '\r' || c = '\x0b' || c = '\x0c'

/-- Membership in the quote character class of the pattern. -/
def isQuoteChar (c : Char) : Bool :=
  c = squote || c = dquote

/-- Strip an exact character sequence from the front. -/
def stripChars : List Char → List Char → Option (List Char)
  | [], cs => some cs
  | _ :: _, [] => none
  | p :: ps, c :: cs => if c = p then stripChars ps cs else none

/-- The lazy value group followed by the closing quote class: the shortest
prefix up to a quote character of either kind; no match when no quote
character follows. -/
def takeToQuote (cs : List Char) : Option (List Char × Char × List Char) :=
  match cs.dropWhile (fun c => !(isQuoteChar c)) with
  | q :: rest => some (cs.takeWhile (fun c => !(isQuoteChar c)), q, rest)
  | [] => none

/-- One alternative of the pattern after the leading whitespace: the name,
whitespace, the equals sign, whitespace, an opening quote, the lazy value,
a closing quote character, the rest.  Returns the tail of group 1 (from
the name through the whitespace after the equals sign), group 3 and
group 6. -/
def tryNameMatch (nm : List Char) (cs : List Char) : Option (List Char × Char × List Char) :=
  match stripChars nm cs with
  | none => none
  | some r1 =>
    match r1.dropWhile isPySpace with
    | [] => none
    | c :: r3 =>
      if c = '=' then
        match r3.dropWhile isPySpace with
        | [] => none
        | q :: r5 =>
          if isQuoteChar q then
            match takeToQuote r5 with
            | some (_, _, rest) =>
              some (nm ++ r1.takeWhile isPySpace ++ '=' :: r3.takeWhile isPySpace, q, rest)
            | none => none
          else none
      else none

/-- The alternation over candidate names, in list order. -/
def tryNames : List String → List Char → Option (List Char × Char × List Char)
  | [], _ => none
  | n :: ns, cs =>
    match tryNameMatch n.data cs with
    | some r => some r
    | none => tryNames ns cs

/-- Model of applying the compiled pattern with re.match to one line: on a
match, group 1 (leading whitespace through the whitespace after the equals
sign), group 3 (the opening quote) and group 6 (everything after the
closing quote character). -/
def matchLine (pyvars : List String) (line : String) : Option (List Char × Char × List Char) :=
  match tryNames pyvars (line.data.dropWhile isPySpace) with
  | some (g1t, q, g6) => some (line.data.takeWhile isPySpace ++ g1t, q, g6)
  | none => none

/-- The rewriting of one line: a matching line becomes group 1, the opening
quote, the new version, the opening quote again, group 6; other lines pass
unchanged. -/
def rewriteLine (pyvars : List String) (newVersion : String) (line : String) : String :=
  match matchLine pyvars line with
  | some (g1, q, g6) => String.mk (g1 ++ q :: (newVersion.data ++ q :: g6))
  | none => line

/-- Model of sync_pyfile_version in pyfile.py on the lines of an existing
file: rewrite every matching line; the Bool is the found flag, false
exactly when no line matched, in which case the warning is printed and the
file is rewritten with its original lines. -/
def sync_pyfile_version (pyvars : List String) (newVersion : String) :
    List String → List String × Bool
  | [] => ([], false)
  | l :: ls =>
    let rest := sync_pyfile_version pyvars newVersion ls
    (rewriteLine pyvars newVersion l :: rest.1, (matchLine pyvars l).isSome || rest.2)

/-- Decidable equality of Except results, for concrete evaluations. -/
instance {ε α : Type} [DecidableEq ε] [DecidableEq α] : DecidableEq (Except ε α) := fun x y =>
  match x, y with
  | Except.ok a, Except.ok b =>
    match decEq a b with
    | isTrue h => isTrue (congrArg Except.ok h)
    | isFalse h => isFalse (fun hc => h (Except.ok.inj hc))
  | Except.ok _, Except.error _ => isFalse (fun hc => Except.noConfusion hc)
  | Except.error _, Except.ok _ => isFalse (fun hc => Except.noConfusion hc)
  | Except.error e, Except.error e2 =>
    match decEq e e2 with
    | isTrue h => isTrue (congrArg Except.error h)
    | isFalse h => isFalse (fun hc => h (Except.error.inj hc))

/-! ## Restricted source parser (model of ast.parse on the fragment used)

For the pipeline claims the Python parser is modelled on a restricted
fragment: files whose lines are blank lines, comment lines, pass
statements, single-line assignments of one plain string literal to one
identifier (with an optional trailing comment), and a two-line
parenthesized form, identifier equals open-parenthesis on one line and the
quoted string with the closing parenthesis on the next.  On this fragment
the model returns exactly the statements ast.parse yields; every other
line makes the model fail where ast.parse may still succeed, which only
narrows the domain of the round-trip statements. -/

/-- Start character of an identifier (ASCII model). -/
def isIdentStart (c : Char) : Bool := c.isAlpha || c = '_'

/-- Character of an identifier (ASCII model). -/
def isIdentChar (c : Char) : Bool := c.isAlpha || c.isDigit || c = '_'

/-- The decomposition of a single-line string assignment: leading
whitespace, the identifier, whitespace, the equals sign, whitespace, the
quote, the value (free of both quote characters), the same quote, and the
tail (whitespace, optionally followed by a comment). -/
structure FlatAssign where
  ws0 : List Char
  ident : List Char
  ws1 : List Char
  ws2 : List Char
  q : Char
  val : List Char
  tail : List Char

/-- Is a tail admissible after the closing quote: only whitespace,
optionally followed by a comment? -/
def isCommentTail (cs : List Char) : Bool :=
  match cs.dropWhile isPySpace with
  | [] => true
  | c :: _ => c = '#'

/-- Parse the part after the equals sign of a single-line string
assignment: whitespace, a quote, the value up to the same quote, and an
admissible tail.  Returns the whitespace, quote, value and tail. -/
def parseAfterEq (r3 : List Char) : Option (List Char × Char × List Char × List Char) :=
  match r3.dropWhile isPySpace with
  | [] => none
  | q :: r5 =>
    if isQuoteChar q then
      match r5.dropWhile (fun c => !(isQuoteChar c)) with
      | q2 :: tail =>
        if q2 = q then
          if isCommentTail tail then
            some (r3.takeWhile isPySpace, q, r5.takeWhile (fun c => !(isQuoteChar c)), tail)
          else none
        else none
      | [] => none
    else none

/-- Parse the part after the identifier: whitespace, the equals sign, and
the rest via parseAfterEq. -/
def parseAfterIdent (r1 : List Char) :
    Option (List Char × List Char × Char × List Char × List Char) :=
  match r1.dropWhile isPySpace with
  | [] => none
  | c :: r3 =>
    if c = '=' then
      match parseAfterEq r3 with
      | some (ws2, q, val, tail) => some (r1.takeWhile isPySpace, ws2, q, val, tail)
      | none => none
    else none

/-- Parse a single-line string assignment. -/
def parseFlatAssign (line : String) : Option FlatAssign :=
  match (line.data.dropWhile isPySpace).takeWhile isIdentChar with
  | [] => none
  | c0 :: rest0 =>
    if isIdentStart c0 then
      match parseAfterIdent ((line.data.dropWhile isPySpace).dropWhile isIdentChar) with
      | some (ws1, ws2, q, val, tail) =>
        some ⟨line.data.takeWhile isPySpace, c0 :: rest0, ws1, ws2, q, val, tail⟩
      | none => none
    else none

/-- Parse the first line of the parenthesized form: identifier, equals
sign, open parenthesis, only whitespace after; returns the identifier. -/
def parseParenStart (line : String) : Option (List Char) :=
  match (line.data.dropWhile isPySpace).takeWhile isIdentChar with
  | [] => none
  | c0 :: rest0 =>
    if isIdentStart c0 then
      match ((line.data.dropWhile isPySpace).dropWhile isIdentChar).dropWhile isPySpace with
      | '=' :: r3 =>
        match r3.dropWhile isPySpace with
        | '(' :: r4 => if r4.all isPySpace then some (c0 :: rest0) else none
        | _ => none
      | _ => none
    else none

/-- Parse the second line of the parenthesized form: the quoted string and
the closing parenthesis; returns the value. -/
def parseParenEnd (line : String) : Option (List Char) :=
  match line.data.dropWhile isPySpace with
  | [] => none
  | q :: r1 =>
    if isQuoteChar q then
      match r1.dropWhile (fun c => !(isQuoteChar c)) with
      | q2 :: r2 =>
        if q2 = q then
          match r2 with
          | ')' :: r3 =>
            if r3.all isPySpace then some (r1.takeWhile (fun c => !(isQuoteChar c))) else none
          | _ => none
        else none
      | [] => none
    else none

/-- Is the line blank or a comment (ignored by the parser)? -/
def blankOrComment (line : String) : Bool :=
  match line.data.dropWhile isPySpace with
  | [] => true
  | c :: _ => c = '#'

/-- Is the line a pass statement? -/
def passLine (line : String) : Bool :=
  ((line.data.dropWhile isPySpace).takeWhile (fun c => !(isPySpace c)) == "pass".data)
  && ((line.data.dropWhile isPySpace).dropWhile (fun c => !(isPySpace c))).all isPySpace

/-- Parse one line in isolation: none when it is outside the fragment,
some none when it contributes no statement, some of a statement
otherwise. -/
def lineOne (line : String) : Option (Option PyStmt) :=
  if blankOrComment line then some none
  else
    match parseFlatAssign line with
    | some fa =>
      some (some (PyStmt.assign [PyTarget.name (String.mk fa.ident)]
        (PyExpr.constStr (String.mk fa.val))))
    | none =>
      if passLine line then some (some PyStmt.simple) else none

/-- The parser with explicit fuel; the fuel only serves structural
termination and never runs out when it is at least the number of lines. -/
def parsePyFuel : Nat → List String → Option (List PyStmt)
  | _, [] => some []
  | 0, _ :: _ => none
  | n + 1, l1 :: rest =>
    match parseParenStart l1 with
    | some identcs =>
      match rest with
      | [] => none
      | l2 :: rest2 =>
        match parseParenEnd l2, parsePyFuel n rest2 with
        | some val, some t =>
          some (PyStmt.assign [PyTarget.name (String.mk identcs)]
            (PyExpr.constStr (String.mk val)) :: t)
        | _, _ => none
    | none =>
      match lineOne l1, parsePyFuel n rest with
      | some none, some t => some t
      | some (some s), some t => some (s :: t)
      | _, _ => none

/-- Model of ast.parse on the restricted fragment, line by line. -/
def parsePy (lines : List String) : Option (List PyStmt) :=
  parsePyFuel lines.length lines

/-- The statements of a file every line of which parses in isolation. -/
def flatTreeOf (lines : List String) : List PyStmt :=
  lines.filterMap (fun l =>
    match lineOne l with
    | some (some s) => some s
    | _ => none)

/-- Replace the value of candidate-name assignments by the new version. -/
def retargetStmt (pyvars : List String) (nv : String) (s : PyStmt) : PyStmt :=
  match s with
  | PyStmt.assign tgts v =>
    if targetHit pyvars tgts then PyStmt.assign tgts (PyExpr.constStr nv)
    else PyStmt.assign tgts v
  | s => s

/-- A line of the single-line fragment: not the parenthesized opener, and
parsing in isolation. -/
def flatLineOk (line : String) : Bool :=
  (parseParenStart line).isNone && (lineOne line).isSome

/-- A file of the single-line fragment. -/
def flatPyFile (lines : List String) : Bool :=
  lines.all flatLineOk

/-- Does the line assign a string literal to a candidate name? -/
def hasCandidateLine (pyvars : List String) (line : String) : Bool :=
  match parseFlatAssign line with
  | some fa => pyvars.contains (String.mk fa.ident)
  | none => false

/-- A candidate name as the CLI produces them: a nonempty identifier. -/
def goodVar (nm : String) : Bool :=
  !(nm.data.isEmpty) && nm.data.all isIdentChar

/-- All candidate names are nonempty identifiers. -/
def goodVars (pyvars : List String) : Bool :=
  pyvars.all goodVar

/-! ## The collect and sync pipeline (parse_versions and sync_versions) -/

/-- Failures of collecting a version from one file: the clean missing-value
exits, the parse failure, the unhandled AttributeError, a version value
that is not a string, a version string the Version constructor rejects,
and the empty-input exit of main. -/
inductive RdErr where
  | notFound
  | parseError
  | attrError
  | badValue
  | badVersion
  | emptyInput
deriving DecidableEq

/-- The parsed content of a tracked file, tagged by its dispatch kind. -/
inductive FileContent where
  | toml (doc : TomlDoc)
  | json (doc : JsonDoc)
  | py (lines : List String)

/-- The version string read from one file by the matching accessor. -/
def readVersionStr (pyvars : List String) : FileContent → Except RdErr String
  | FileContent.toml doc =>
    match get_pyproject_version "pyproject.toml" doc with
    | Except.ok (TomlVal.str s) => Except.ok s
    | Except.ok _ => Except.error RdErr.badValue
    | Except.error _ => Except.error RdErr.notFound
  | FileContent.json doc =>
    match get_packagejson_version "package.json" doc with
    | Except.ok (JsonVal.str s) => Except.ok s
    | Except.ok _ => Except.error RdErr.badValue
    | Except.error _ => Except.error RdErr.notFound
  | FileContent.py lines =>
    match parsePy lines with
    | none => Except.error RdErr.parseError
    | some tree =>
      match get_pyfile_version tree pyvars with
      | Except.ok (PyVal.str s) => Except.ok s
      | Except.ok _ => Except.error RdErr.badValue
      | Except.error PyErr.notFound => Except.error RdErr.notFound
      | Except.error PyErr.attributeError => Except.error RdErr.attrError

/-- The parsed Version of one file (the Version constructor applied to the
read string, as parse_versions does). -/
def readVersion (pyvars : List String) (f : FileContent) : Except RdErr Version :=
  match readVersionStr pyvars f with
  | Except.error e => Except.error e
  | Except.ok s =>
    match parseVersion s with
    | some v => Except.ok v
    | none => Except.error RdErr.badVersion

/-- Model of parse_versions: read every file in order, fail fast on the
first failure. -/
def collectVersions (pyvars : List String) :
    List FileContent → Except RdErr (List (FileContent × Version))
  | [] => Except.ok []
  | f :: fs =>
    match readVersion pyvars f with
    | Except.error e => Except.error e
    | Except.ok v =>
      match collectVersions pyvars fs with
      | Except.error e => Except.error e
      | Except.ok rest => Except.ok ((f, v) :: rest)

/-- The write of one file kind, on the parsed content. -/
def writeContent (pyvars : List String) (target : Version) : FileContent → FileContent
  | FileContent.toml doc =>
    FileContent.toml (sync_pyproject_version doc (verToString target)).1
  | FileContent.json doc =>
    FileContent.json (sync_package_json_version doc (verToString target))
  | FileContent.py lines =>
    FileContent.py (sync_pyfile_version pyvars (verToString target) lines).1

/-- The highest version of a collected nonempty report (main line 88). -/
def pipelineTarget : List (FileContent × Version) → Version
  | [] => Version.mk []
  | (_, v) :: rest => pyMax v (rest.map (fun p => p.2))

/-- Model of sync_versions on contents: every file whose version differs
from the target under packaging equality is written, the others are left
as they are. -/
def syncFiles (pyvars : List String) (target : Version)
    (rep : List (FileContent × Version)) : List FileContent :=
  rep.map (fun p => if verEq p.2 target then p.1 else writeContent pyvars target p.1)

/-- The files whose writers sync_versions invokes. -/
def writeTargets (target : Version) (rep : List (FileContent × Version)) : List FileContent :=
  (rep.filter (fun p => !(verEq p.2 target))).map (fun p => p.1)

/-- One full sync run: collect, fail on an empty report, write the files
out of target; the result is the file system afterwards. -/
def runSync (pyvars : List String) (files : List FileContent) :
    Except RdErr (List FileContent) :=
  match collectVersions pyvars files with
  | Except.error e => Except.error e
  | Except.ok [] => Except.error RdErr.emptyInput
  | Except.ok (r :: rest) =>
    Except.ok (syncFiles pyvars (pipelineTarget (r :: rest)) (r :: rest))

/-- The files a sync run writes. -/
def runSyncWrites (pyvars : List String) (files : List FileContent) :
    Except RdErr (List FileContent) :=
  match collectVersions pyvars files with
  | Except.error e => Except.error e
  | Except.ok [] => Except.error RdErr.emptyInput
  | Except.ok (r :: rest) => Except.ok (writeTargets (pipelineTarget (r :: rest)) (r :: rest))

/-- The files on which a writer can land the target version: a TOML
document with one of the two version slots, a JSON document with a
version key, a source file of the single-line fragment with a
candidate-name assignment. -/
def hasVersionSlot (pyvars : List String) : FileContent → Bool
  | FileContent.toml doc =>
    (lookupPoetryVersion doc).isSome || (lookupProjectVersion doc).isSome
  | FileContent.json doc => (assocFind doc "version").isSome
  | FileContent.py lines => flatPyFile lines && lines.any (hasCandidateLine pyvars)

/-- The default candidate names of the CLI. -/
def defVars : List String := ["version", "VERSION", "__version__", "__VERSION__"]

/-- A source file mixing the parenthesized form and a single-line
assignment of the same candidate name. -/
def pyMixed3 : List String :=
  ["version = (", "\x220.5.0\x22)", "version = \x220.4.0\x22"]

/-- A JSON file at 2.0.0 and a source file holding only the parenthesized
assignment at 0.5.0. -/
def exMixedFiles : List FileContent :=
  [FileContent.json [("version", JsonVal.str "2.0.0")],
   FileContent.py ["version = (", "\x220.5.0\x22)"]]

/-- A JSON file at 1.2.3 and a single-line source file at 1.1.0. -/
def exFlatFiles : List FileContent :=
  [FileContent.json [("version", JsonVal.str "1.2.3")],
   FileContent.py ["__version__ = \x221.1.0\x22"]]

/-- Example report with two packaging-equal versions. -/
def exReportEq : List (TFile × Version) :=
  [(⟨0, FKind.packageJson⟩, ⟨[1, 2, 3]⟩), (⟨1, FKind.pyFile⟩, ⟨[1, 2, 3]⟩)]

/-- Example report with two different versions. -/
def exReportNe : List (TFile × Version) :=
  [(⟨0, FKind.packageJson⟩, ⟨[1, 0, 0]⟩), (⟨1, FKind.pyFile⟩, ⟨[1, 2, 3]⟩)]

/-- Example report with versions 1.9.0 and 1.10.0. -/
def exReportMax : List (TFile × Version) :=
  [(⟨0, FKind.packageJson⟩, ⟨[1, 9, 0]⟩), (⟨1, FKind.pyFile⟩, ⟨[1, 10, 0]⟩)]

/-- Example report with versions parsed from 1.0 and 1.0.0. -/
def exReportNorm : List (TFile × Version) :=
  [(⟨0, FKind.packageJson⟩, ⟨[1, 0]⟩), (⟨1, FKind.pyFile⟩, ⟨[1, 0, 0]⟩)]

/-! ## Theorems -/

theorem keyCmp_self (a : List Nat) : keyCmp a a = Ordering.eq := by
  induction a with
  | nil => rfl
  | cons x xs ih => simp [keyCmp, ih]

theorem keyCmp_eq_iff (a b : List Nat) : keyCmp a b = Ordering.eq ↔ a = b := by
  induction a generalizing b with
  | nil =>
    cases b with
    | nil => simp [keyCmp]
    | cons y ys => simp [keyCmp]
  | cons x xs ih =>
    cases b with
    | nil => simp [keyCmp]
    | cons y ys =>
      by_cases hxy : x < y
      · simp [keyCmp, hxy]
        intro h
        omega
      · by_cases hyx : y < x
        · simp [keyCmp, hxy, hyx]
          intro h
          omega
        · have hx : x = y := by omega
          subst hx
          simp [keyCmp, hxy, hyx, ih]

theorem keyCmp_swap (a b : List Nat) : keyCmp b a = (keyCmp a b).swap := by
  induction a generalizing b with
  | nil =>
    cases b with
    | nil => rfl
    | cons y ys => rfl
  | cons x xs ih =>
    cases b with
    | nil => rfl
    | cons y ys =>
      by_cases hxy : x < y
      · have hyx : ¬ y < x := by omega
        simp [keyCmp, hxy, hyx, Ordering.swap]
      · by_cases hyx : y < x
        · simp [keyCmp, hxy, hyx, Ordering.swap]
        · simp [keyCmp, hxy, hyx, ih]

theorem keyCmp_le_trans {a b c : List Nat}
    (hab : keyCmp a b ≠ Ordering.gt) (hbc : keyCmp b c ≠ Ordering.gt) :
    keyCmp a c ≠ Ordering.gt := by
  induction a generalizing b c with
  | nil =>
    cases c with
    | nil => simp [keyCmp]
    | cons z zs => simp [keyCmp]
  | cons x xs ih =>
    cases b with
    | nil => simp [keyCmp] at hab
    | cons y ys =>
      cases c with
      | nil => simp [keyCmp] at hbc
      | cons z zs =>
        by_cases hxy : x < y
        · by_cases hyz : y < z
          · have hxz : x < z := by omega
            simp [keyCmp, hxz]
          · by_cases hzy : z < y
            · simp [keyCmp, hyz, hzy] at hbc
            · have hyz2 : y = z := by omega
              subst hyz2
              simp [keyCmp, hxy]
        · by_cases hyx : y < x
          · simp [keyCmp, hxy, hyx] at hab
          · have hxy2 : x = y := by omega
            subst hxy2
            by_cases hyz : x < z
            · simp [keyCmp, hyz]
            · by_cases hzy : z < x
              · simp [keyCmp, hyz, hzy] at hbc
              · have hxz : x = z := by omega
                subst hxz
                simp [keyCmp, hyz] at hab hbc ⊢
                exact ih hab hbc

theorem verEq_refl (v : Version) : verEq v v = true := by
  simp [verEq, verCmp, keyCmp_self]

theorem verEq_iff_key (v w : Version) : verEq v w = true ↔ verKey v = verKey w := by
  simp only [verEq, verCmp, decide_eq_true_eq]
  exact keyCmp_eq_iff _ _

theorem verLe_refl (v : Version) : verLe v v = true := by
  simp [verLe, verCmp, keyCmp_self]

theorem verLe_of_not_lt {v w : Version} (h : verLt v w = false) : verLe w v = true := by
  simp only [verLt, verCmp, decide_eq_false_iff_not] at h
  simp only [verLe, verCmp, keyCmp_swap (verKey v) (verKey w), Bool.not_eq_true',
    decide_eq_false_iff_not]
  intro hcon
  cases hc : keyCmp (verKey v) (verKey w) with
  | lt => exact h hc
  | eq => rw [hc] at hcon; simp [Ordering.swap] at hcon
  | gt => rw [hc] at hcon; simp [Ordering.swap] at hcon

theorem verLe_of_lt {v w : Version} (h : verLt v w = true) : verLe v w = true := by
  simp only [verLt, verCmp, decide_eq_true_eq] at h
  simp [verLe, verCmp, h]

theorem verLe_of_eq {v w : Version} (h : verEq v w = true) : verLe v w = true := by
  simp only [verEq, verCmp, decide_eq_true_eq] at h
  simp [verLe, verCmp, h]

theorem verLe_trans {u v w : Version}
    (h1 : verLe u v = true) (h2 : verLe v w = true) : verLe u w = true := by
  simp only [verLe, verCmp, Bool.not_eq_true', decide_eq_false_iff_not] at h1 h2 ⊢
  exact keyCmp_le_trans h1 h2

theorem pyMax_cons (v x : Version) (xs : List Version) :
    pyMax v (x :: xs) = pyMax (if verLt v x then x else v) xs := rfl

theorem pyMax_le_self (vs : List Version) : ∀ v, verLe v (pyMax v vs) = true := by
  induction vs with
  | nil => intro v; simp [pyMax, verLe_refl]
  | cons x xs ih =>
    intro v
    rw [pyMax_cons]
    by_cases h : verLt v x = true
    · simp only [h, if_true]
      exact verLe_trans (verLe_of_lt h) (ih x)
    · simp only [eq_false_of_ne_true h, if_false]
      exact ih v

theorem pyMax_ge_mem (vs : List Version) :
    ∀ v w, w ∈ vs → verLe w (pyMax v vs) = true := by
  induction vs with
  | nil => intro v w hw; cases hw
  | cons x xs ih =>
    intro v w hw
    rw [pyMax_cons]
    rcases List.mem_cons.mp hw with h | h
    · rw [h]
      by_cases hvx : verLt v x = true
      · simp only [hvx, if_true]
        exact pyMax_le_self xs x
      · simp only [eq_false_of_ne_true hvx, if_false]
        have hle : verLe x v = true := verLe_of_not_lt (eq_false_of_ne_true hvx)
        exact verLe_trans hle (pyMax_le_self xs v)
    · exact ih _ w h

theorem pyMax_mem_or_self (vs : List Version) :
    ∀ v, pyMax v vs = v ∨ pyMax v vs ∈ vs := by
  induction vs with
  | nil => intro v; left; rfl
  | cons x xs ih =>
    intro v
    rw [pyMax_cons]
    by_cases h : verLt v x = true
    · simp only [h, if_true]
      rcases ih x with h1 | h1
      · right; rw [h1]; exact List.mem_cons_self x xs
      · right; exact List.mem_cons_of_mem x h1
    · simp only [eq_false_of_ne_true h, if_false]
      rcases ih v with h1 | h1
      · left; exact h1
      · right; exact List.mem_cons_of_mem x h1

/-! ## Decimal rendering and parsing of version components -/

theorem charDigit_digitChar (d : Nat) (hd : d < 10) : charDigit (digitChar d) = some d := by
  interval_cases d <;> rfl

theorem digitChar_toNat (d : Nat) (hd : d < 10) : (digitChar d).toNat = 48 + d := by
  interval_cases d <;> rfl

theorem parseNatAcc_map (ds : List Nat) :
    ∀ acc, (∀ d ∈ ds, d < 10) →
      parseNatAcc acc (ds.map digitChar) = some (ds.foldl (fun a d => a * 10 + d) acc) := by
  induction ds with
  | nil => intro acc _; rfl
  | cons d ds ih =>
    intro acc hds
    have hd : d < 10 := hds d (List.mem_cons_self d ds)
    show (match charDigit (digitChar d) with
      | some e => parseNatAcc (acc * 10 + e) (ds.map digitChar)
      | none => none) = _
    rw [charDigit_digitChar d hd]
    show parseNatAcc (acc * 10 + d) (ds.map digitChar) = _
    rw [ih (acc * 10 + d) (fun e he => hds e (List.mem_cons_of_mem d he))]
    rfl

theorem foldl_rev_digits (L : List Nat) :
    L.reverse.foldl (fun a d => a * 10 + d) 0 = Nat.ofDigits 10 L := by
  induction L with
  | nil => rfl
  | cons d L ih =>
    rw [List.reverse_cons, List.foldl_append, ih, Nat.ofDigits_cons]
    simp
    ring

theorem natReprAux_eq (fuel : Nat) : ∀ n, n ≤ fuel →
    natReprAux fuel n = (Nat.digits 10 n).reverse.map digitChar := by
  induction fuel with
  | zero =>
    intro n hn
    cases n with
    | zero => simp [natReprAux]
    | succ m => omega
  | succ fuel ih =>
    intro n hn
    cases n with
    | zero => simp [natReprAux]
    | succ m =>
      show natReprAux fuel ((m + 1) / 10) ++ [digitChar ((m + 1) % 10)] = _
      have hdivlt : (m + 1) / 10 < m + 1 := Nat.div_lt_self (Nat.succ_pos m) (by norm_num)
      rw [ih ((m + 1) / 10) (by omega),
        Nat.digits_def' (by norm_num : 1 < 10) (Nat.succ_pos m),
        List.reverse_cons, List.map_append]
      rfl

theorem natRepr_eq (n : Nat) :
    natRepr n = if n = 0 then [digitChar 0] else (Nat.digits 10 n).reverse.map digitChar := by
  unfold natRepr
  by_cases h : n = 0
  · rw [if_pos h, if_pos h]
  · rw [if_neg h, if_neg h, natReprAux_eq n n (le_refl n)]

theorem parseNat_natRepr (n : Nat) : parseNat (natRepr n) = some n := by
  by_cases h0 : n = 0
  · subst h0; rfl
  · have hdigs : ∀ d ∈ (Nat.digits 10 n).reverse, d < 10 := by
      intro d hd
      exact Nat.digits_lt_base (by omega) (List.mem_reverse.mp hd)
    have hne : (Nat.digits 10 n).reverse ≠ [] := by
      simp [Nat.digits_ne_nil_iff_ne_zero, h0]
    rw [natRepr_eq]
    rw [if_neg h0]
    cases hL : (Nat.digits 10 n).reverse with
    | nil => exact absurd hL hne
    | cons d ds =>
      rw [hL] at hdigs
      show parseNatAcc 0 ((d :: ds).map digitChar) = some n
      rw [parseNatAcc_map _ 0 hdigs, ← hL, foldl_rev_digits, Nat.ofDigits_digits]

theorem natRepr_toNat_range (n : Nat) (c : Char) (hc : c ∈ natRepr n) :
    48 ≤ c.toNat ∧ c.toNat ≤ 57 := by
  rw [natRepr_eq] at hc
  by_cases h0 : n = 0
  · rw [if_pos h0] at hc
    rcases List.mem_singleton.mp hc with rfl
    constructor <;> decide
  · rw [if_neg h0] at hc
    rcases List.mem_map.mp hc with ⟨d, hd, rfl⟩
    have hlt : d < 10 := Nat.digits_lt_base (by omega) (List.mem_reverse.mp hd)
    rw [digitChar_toNat d hlt]
    omega

theorem natRepr_ne_dot (n : Nat) (c : Char) (hc : c ∈ natRepr n) : c ≠ '.' := by
  have h := natRepr_toNat_range n c hc
  intro hEq
  rw [hEq] at h
  revert h
  decide

theorem natRepr_ne_nil (n : Nat) : natRepr n ≠ [] := by
  rw [natRepr_eq]
  by_cases h0 : n = 0
  · rw [if_pos h0]; simp
  · rw [if_neg h0]
    simp [Nat.digits_ne_nil_iff_ne_zero, h0]

/-! ## Dot-separated version strings -/

theorem splitDots_ne_nil (cs : List Char) : splitDots cs ≠ [] := by
  cases cs with
  | nil => simp [splitDots]
  | cons c cs =>
    unfold splitDots
    by_cases h : c = '.'
    · simp [h]
    · rw [if_neg h]
      cases splitDots cs with
      | nil => simp
      | cons p ps => simp

theorem splitDots_append (p : List Char) :
    ∀ cs, (∀ c ∈ p, c ≠ '.') →
      ∃ q qs, splitDots cs = q :: qs ∧ splitDots (p ++ cs) = (p ++ q) :: qs := by
  induction p with
  | nil =>
    intro cs _
    cases hs : splitDots cs with
    | nil => exact absurd hs (splitDots_ne_nil cs)
    | cons q qs => exact ⟨q, qs, rfl, by simpa using hs⟩
  | cons c p ih =>
    intro cs hnd
    have hc : c ≠ '.' := hnd c (List.mem_cons_self c p)
    rcases ih cs (fun d hd => hnd d (List.mem_cons_of_mem c hd)) with ⟨q, qs, hq, happ⟩
    refine ⟨q, qs, hq, ?_⟩
    show splitDots (c :: (p ++ cs)) = _
    unfold splitDots
    rw [if_neg hc, happ]
    rfl

theorem splitDots_joinDots (parts : List (List Char)) (hne : parts ≠ [])
    (hnd : ∀ part ∈ parts, ∀ c ∈ part, c ≠ '.') :
    splitDots (joinDots parts) = parts := by
  induction parts with
  | nil => exact absurd rfl hne
  | cons p ps ih =>
    cases ps with
    | nil =>
      show splitDots (joinDots [p]) = [p]
      have : joinDots [p] = p ++ [] := by simp [joinDots]
      rw [this]
      rcases splitDots_append p [] (hnd p (List.mem_cons_self p [])) with ⟨q, qs, hq, happ⟩
      have hq2 : q = [] ∧ qs = [] := by
        have : ([] : List Char) :: [] = q :: qs := by rw [← hq]; rfl
        exact ⟨(List.cons.injEq _ _ _ _ ▸ this).1.symm, (List.cons.injEq _ _ _ _ ▸ this).2.symm⟩
      rw [happ, hq2.1, hq2.2, List.append_nil]
    | cons p2 ps2 =>
      show splitDots (p ++ '.' :: joinDots (p2 :: ps2)) = p :: p2 :: ps2
      rcases splitDots_append p ('.' :: joinDots (p2 :: ps2))
        (hnd p (List.mem_cons_self p _)) with ⟨q, qs, hq, happ⟩
      have hdot : splitDots ('.' :: joinDots (p2 :: ps2)) = [] :: splitDots (joinDots (p2 :: ps2)) := by
        conv_lhs => rw [splitDots]
        rw [if_pos rfl]
      have hrec : splitDots (joinDots (p2 :: ps2)) = p2 :: ps2 :=
        ih (by simp) (fun part hp => hnd part (List.mem_cons_of_mem p hp))
      rw [hdot, hrec] at hq
      have hq' : q = [] ∧ qs = p2 :: ps2 := by
        have h1 := (List.cons.injEq _ _ _ _ ▸ hq.symm)
        exact ⟨h1.1, h1.2⟩
      rw [happ, hq'.1, hq'.2, List.append_nil]

theorem mapM_parseNat_natRepr (rel : List Nat) :
    (rel.map natRepr).mapM parseNat = some rel := by
  induction rel with
  | nil => rfl
  | cons n ns ih =>
    show ((natRepr n :: ns.map natRepr).mapM parseNat) = some (n :: ns)
    rw [List.mapM_cons, parseNat_natRepr, ih]
    rfl

theorem parseVersion_verToString (v : Version) (hv : v.release ≠ []) :
    parseVersion (verToString v) = some v := by
  unfold parseVersion verToString parseRelease
  have hdata : (String.mk (joinDots (v.release.map natRepr))).data
      = joinDots (v.release.map natRepr) := rfl
  rw [hdata]
  have hsplit : splitDots (joinDots (v.release.map natRepr)) = v.release.map natRepr := by
    apply splitDots_joinDots
    · simp [hv]
    · intro part hp c hc
      rcases List.mem_map.mp hp with ⟨n, _, rfl⟩
      exact natRepr_ne_dot n c hc
  rw [hsplit, mapM_parseNat_natRepr]

theorem parseVersion_release_ne_nil (s : String) (v : Version)
    (h : parseVersion s = some v) : v.release ≠ [] := by
  unfold parseVersion parseRelease at h
  cases hm : (splitDots s.data).mapM parseNat with
  | none => rw [hm] at h; cases h
  | some parts =>
    rw [hm] at h
    cases h
    cases hs : splitDots s.data with
    | nil => exact absurd hs (splitDots_ne_nil s.data)
    | cons q qs =>
      rw [hs, List.mapM_cons] at hm
      cases hq : parseNat q with
      | none => rw [hq] at hm; cases hm
      | some a =>
        rw [hq] at hm
        cases hrest : qs.mapM parseNat with
        | none => rw [hrest] at hm; cases hm
        | some as =>
          rw [hrest] at hm
          simp at hm
          rw [← hm]
          simp

theorem stmtSizeList_append (l1 l2 : List PyStmt) :
    stmtSizeList (l1 ++ l2) = stmtSizeList l1 + stmtSizeList l2 := by
  induction l1 with
  | nil => simp [stmtSizeList]
  | cons a l ih => simp only [List.cons_append, List.append_eq, stmtSizeList, ih]; omega

theorem stmtSize_pos (s : PyStmt) : 1 ≤ stmtSize s := by
  cases s <;> simp [stmtSize]

theorem stmtChildren_size (s : PyStmt) : stmtSizeList (stmtChildren s) < stmtSize s := by
  cases s <;> simp [stmtChildren, stmtSize, stmtSizeList]

theorem stmtSizeList_cons_pos (s : PyStmt) (rest : List PyStmt) :
    1 ≤ stmtSizeList (s :: rest) := by
  have := stmtSize_pos s
  simp only [stmtSizeList]
  omega

theorem walkFuel_nil (n : Nat) : walkFuel n [] = [] := by
  cases n <;> rfl

theorem walkFuel_congr : ∀ (n m : Nat) (q : List PyStmt),
    stmtSizeList q ≤ n → stmtSizeList q ≤ m → walkFuel n q = walkFuel m q := by
  intro n
  induction n with
  | zero =>
    intro m q hn _
    cases q with
    | nil => rw [walkFuel_nil, walkFuel_nil]
    | cons s rest => exact absurd hn (by have := stmtSizeList_cons_pos s rest; omega)
  | succ n ih =>
    intro m q hn hm
    cases q with
    | nil => rw [walkFuel_nil, walkFuel_nil]
    | cons s rest =>
      cases m with
      | zero => exact absurd hm (by have := stmtSizeList_cons_pos s rest; omega)
      | succ m =>
        show s :: walkFuel n (rest ++ stmtChildren s) = s :: walkFuel m (rest ++ stmtChildren s)
        have hbound : stmtSizeList (rest ++ stmtChildren s) + 1
            ≤ stmtSize s + stmtSizeList rest := by
          rw [stmtSizeList_append]
          have h1 := stmtChildren_size s
          omega
        simp only [stmtSizeList] at hn hm
        rw [ih m (rest ++ stmtChildren s) (by omega) (by omega)]

theorem walkStmts_nil : walkStmts [] = [] := rfl

theorem walkStmts_cons (s : PyStmt) (rest : List PyStmt) :
    walkStmts (s :: rest) = s :: walkStmts (rest ++ stmtChildren s) := by
  unfold walkStmts
  obtain ⟨k, hk⟩ : ∃ k, stmtSizeList (s :: rest) = k + 1 := by
    have := stmtSizeList_cons_pos s rest
    exact ⟨stmtSizeList (s :: rest) - 1, by omega⟩
  rw [hk]
  show s :: walkFuel k (rest ++ stmtChildren s)
      = s :: walkFuel (stmtSizeList (rest ++ stmtChildren s)) (rest ++ stmtChildren s)
  have hle : stmtSizeList (rest ++ stmtChildren s) ≤ k := by
    rw [stmtSizeList_append]
    have h1 := stmtChildren_size s
    simp only [stmtSizeList] at hk
    omega
  rw [walkFuel_congr k (stmtSizeList (rest ++ stmtChildren s)) (rest ++ stmtChildren s) hle
    (le_refl _)]

theorem walkStmts_splits (q : List PyStmt) : ∃ r, walkStmts q = q ++ r := by
  have main : ∀ (n : Nat) (q : List PyStmt), stmtSizeList q ≤ n →
      ∃ r, walkStmts q = q ++ r := by
    intro n
    induction n with
    | zero =>
      intro q h
      cases q with
      | nil => exact ⟨[], rfl⟩
      | cons s rest => exact absurd h (by have := stmtSizeList_cons_pos s rest; omega)
    | succ n ih =>
      intro q h
      cases q with
      | nil => exact ⟨[], rfl⟩
      | cons s rest =>
        have hbound : stmtSizeList (rest ++ stmtChildren s) + 1
            ≤ stmtSize s + stmtSizeList rest := by
          rw [stmtSizeList_append]
          have h1 := stmtChildren_size s
          omega
        simp only [stmtSizeList] at h
        rcases ih (rest ++ stmtChildren s) (by omega) with ⟨r, hr⟩
        refine ⟨stmtChildren s ++ r, ?_⟩
        rw [walkStmts_cons, hr]
        simp
  exact main (stmtSizeList q) q (le_refl _)

theorem walkStmts_leaf (l : List PyStmt) (hl : ∀ s ∈ l, stmtChildren s = []) :
    walkStmts l = l := by
  induction l with
  | nil => rfl
  | cons s rest ih =>
    rw [walkStmts_cons, hl s (List.mem_cons_self s rest), List.append_nil,
      ih (fun t ht => hl t (List.mem_cons_of_mem s ht))]

theorem scanAssigns_eq_firstCandidate (pyvars : List String) (l : List PyStmt) :
    scanAssigns pyvars l = firstCandidateResult pyvars l := by
  induction l with
  | nil => rfl
  | cons s rest ih =>
    cases s with
    | assign tgts v =>
      by_cases h : targetHit pyvars tgts = true
      · have hp : isCandidateAssign pyvars (PyStmt.assign tgts v) = true := h
        unfold firstCandidateResult
        rw [List.find?_cons_of_pos _ hp]
        show (if targetHit pyvars tgts then constValue v else scanAssigns pyvars rest)
            = constValue v
        rw [if_pos h]
      · have hp : ¬ (isCandidateAssign pyvars (PyStmt.assign tgts v) = true) := h
        unfold firstCandidateResult
        rw [List.find?_cons_of_neg _ hp]
        show (if targetHit pyvars tgts then constValue v else scanAssigns pyvars rest)
            = _
        rw [if_neg h]
        exact ih
    | block body =>
      unfold firstCandidateResult
      rw [List.find?_cons_of_neg _ (by simp [isCandidateAssign])]
      exact ih
    | simple =>
      unfold firstCandidateResult
      rw [List.find?_cons_of_neg _ (by simp [isCandidateAssign])]
      exact ih

/-- C1 (amended): for every parsable file and candidate list, the source-text
read returns node.value.value of the first assignment, in breadth-first
ast.walk order over all statements (module-level statements in textual
order come first, then nested bodies), whose target list hits a candidate
name, whatever the type of the assigned value (an AttributeError when the
value is not a constant); it fails with NotFound exactly when the walk
holds no candidate-name assignment at all. -/
theorem c1_theorem :
    (∀ (tree : List PyStmt) (pyvars : List String),
      get_pyfile_version tree pyvars = firstCandidateResult pyvars (walkStmts tree))
    ∧ (∀ tree : List PyStmt, ∃ rest, walkStmts tree = tree ++ rest) :=
  ⟨fun tree pyvars => scanAssigns_eq_firstCandidate pyvars (walkStmts tree),
   fun tree => walkStmts_splits tree⟩

/-- C1 counterexample: on the module consisting of version = 5 followed by
version = "2.0", the claim demands the string "2.0" of the first candidate
assignment whose value is a string literal, but the code returns the
integer 5 of the first candidate assignment of any value type; and on a
module whose only candidate assignment sits inside a nested block, the
claim demands NotFound while the code returns the nested value. -/
theorem c1_counterexample :
    get_pyfile_version
        [PyStmt.assign [PyTarget.name "version"] (PyExpr.constInt 5),
         PyStmt.assign [PyTarget.name "version"] (PyExpr.constStr "2.0")]
        ["version"]
      = Except.ok (PyVal.int 5)
    ∧ specPyRead
        [PyStmt.assign [PyTarget.name "version"] (PyExpr.constInt 5),
         PyStmt.assign [PyTarget.name "version"] (PyExpr.constStr "2.0")]
        ["version"]
      = Except.ok "2.0"
    ∧ get_pyfile_version
        [PyStmt.block [PyStmt.assign [PyTarget.name "version"] (PyExpr.constStr "9.9")]]
        ["version"]
      = Except.ok (PyVal.str "9.9")
    ∧ specPyRead
        [PyStmt.block [PyStmt.assign [PyTarget.name "version"] (PyExpr.constStr "9.9")]]
        ["version"]
      = Except.error PyErr.notFound := by
  refine ⟨rfl, rfl, rfl, rfl⟩

/-- C10 (confirmed): get_pyfile_version reads node.value.value without
checking that the value is a constant, so when the first candidate-name
assignment in walk order carries a non-constant expression such as a call,
the read raises an unhandled AttributeError, which is distinct from the
clean NotFound exit path. -/
theorem c10_theorem (tree : List PyStmt) (pyvars : List String) (tgts : List PyTarget)
    (h : (walkStmts tree).find? (isCandidateAssign pyvars)
        = some (PyStmt.assign tgts PyExpr.nonConst)) :
    get_pyfile_version tree pyvars = Except.error PyErr.attributeError
    ∧ (Except.error PyErr.attributeError : Except PyErr PyVal)
        ≠ Except.error PyErr.notFound := by
  constructor
  · unfold get_pyfile_version
    rw [scanAssigns_eq_firstCandidate]
    unfold firstCandidateResult
    rw [h]
    rfl
  · simp

/-- C10 witness: a module whose single statement assigns a call expression to
a candidate name. -/
theorem c10_witness :
    get_pyfile_version [PyStmt.assign [PyTarget.name "version"] PyExpr.nonConst] ["version"]
      = Except.error PyErr.attributeError :=
  (c10_theorem [PyStmt.assign [PyTarget.name "version"] PyExpr.nonConst] ["version"]
    [PyTarget.name "version"] rfl).1

theorem setInTable_cons_eq {α : Type} (k : String) (v : α) (rest : List (String × α))
    (key : String) (f : α → α) :
    setInTable ((k, v) :: rest) key f
      = (if k = key then (k, f v) else (k, v)) :: setInTable rest key f := rfl

theorem assocFind_cons_eq {α : Type} (k : String) (v : α) (rest : List (String × α))
    (key : String) :
    assocFind ((k, v) :: rest) key = if k = key then some v else assocFind rest key := rfl

theorem assocFind_setInTable_same {α : Type} (kvs : List (String × α)) (key : String)
    (f : α → α) :
    assocFind (setInTable kvs key f) key = (assocFind kvs key).map f := by
  induction kvs with
  | nil => rfl
  | cons kv rest ih =>
    obtain ⟨k, v⟩ := kv
    rw [setInTable_cons_eq, assocFind_cons_eq]
    by_cases h : k = key
    · rw [if_pos h, assocFind_cons_eq, if_pos h, if_pos h]
      rfl
    · rw [if_neg h, assocFind_cons_eq, if_neg h, if_neg h, ih]

theorem assocFind_setInTable_ne {α : Type} (kvs : List (String × α)) (key key2 : String)
    (f : α → α) (h : key2 ≠ key) :
    assocFind (setInTable kvs key f) key2 = assocFind kvs key2 := by
  induction kvs with
  | nil => rfl
  | cons kv rest ih =>
    obtain ⟨k, v⟩ := kv
    rw [setInTable_cons_eq, assocFind_cons_eq]
    by_cases hk : k = key
    · have hne : ¬ k = key2 := fun hc => h (by rw [← hc, hk])
      rw [if_pos hk, assocFind_cons_eq, if_neg hne, if_neg hne, ih]
    · rw [if_neg hk, assocFind_cons_eq]
      by_cases hk2 : k = key2
      · rw [if_pos hk2, if_pos hk2]
      · rw [if_neg hk2, if_neg hk2, ih]

theorem assocFind_append {α : Type} (l1 l2 : List (String × α)) (key : String) :
    assocFind (l1 ++ l2) key
      = match assocFind l1 key with
        | some v => some v
        | none => assocFind l2 key := by
  induction l1 with
  | nil => rfl
  | cons kv rest ih =>
    obtain ⟨k, v⟩ := kv
    by_cases h : k = key
    · simp [assocFind, h]
    · simp only [List.cons_append, assocFind, if_neg h]
      exact ih

theorem assocFind_dictSet_same {α : Type} (kvs : List (String × α)) (key : String) (v : α) :
    assocFind (dictSet kvs key v) key = some v := by
  unfold dictSet
  by_cases h : (assocFind kvs key).isSome = true
  · rw [if_pos h, assocFind_setInTable_same]
    cases ho : assocFind kvs key with
    | none => rw [ho] at h; simp at h
    | some w => simp
  · rw [if_neg h, assocFind_append]
    cases ho : assocFind kvs key with
    | none => simp [assocFind]
    | some w => rw [ho] at h; simp at h

theorem assocFind_dictSet_ne {α : Type} (kvs : List (String × α)) (key key2 : String)
    (v : α) (h : key2 ≠ key) :
    assocFind (dictSet kvs key v) key2 = assocFind kvs key2 := by
  unfold dictSet
  by_cases hs : (assocFind kvs key).isSome = true
  · rw [if_pos hs, assocFind_setInTable_ne kvs key key2 _ h]
  · rw [if_neg hs, assocFind_append]
    cases ho : assocFind kvs key2 with
    | none =>
      show assocFind [(key, v)] key2 = none
      simp only [assocFind]
      rw [if_neg (fun hc => h (by rw [hc]))]
    | some w => rfl

theorem lookupPoetry_after_setProject (doc : TomlDoc) (nv : String) :
    lookupPoetryVersion (setProjectVersion doc nv) = lookupPoetryVersion doc := by
  unfold lookupPoetryVersion setProjectVersion
  rw [assocFind_setInTable_ne doc "project" "tool" _ (by decide)]

theorem lookupProject_after_setPoetry (doc : TomlDoc) (nv : String) :
    lookupProjectVersion (setPoetryVersion doc nv) = lookupProjectVersion doc := by
  unfold lookupProjectVersion setPoetryVersion
  rw [assocFind_setInTable_ne doc "tool" "project" _ (by decide)]

theorem lookupPoetry_after_setPoetry (doc : TomlDoc) (nv : String)
    (h : (lookupPoetryVersion doc).isSome = true) :
    lookupPoetryVersion (setPoetryVersion doc nv) = some (TomlVal.str nv) := by
  unfold lookupPoetryVersion at h ⊢
  unfold setPoetryVersion
  cases htool : assocFind doc "tool" with
  | none => rw [htool] at h; simp at h
  | some t =>
    rw [htool] at h
    rw [assocFind_setInTable_same, htool]
    simp only [Option.map_some', Option.some_bind] at h ⊢
    cases t with
    | str s => simp [tableFind] at h
    | int n => simp [tableFind] at h
    | table tkvs =>
      show (tableFind (TomlVal.table (setInTable tkvs "poetry" _)) "poetry").bind _ = _
      simp only [tableFind] at h ⊢
      rw [assocFind_setInTable_same]
      cases hpo : assocFind tkvs "poetry" with
      | none => rw [hpo] at h; simp at h
      | some p =>
        rw [hpo] at h
        simp only [Option.map_some', Option.some_bind] at h ⊢
        cases p with
        | str s => simp [tableFind] at h
        | int n => simp [tableFind] at h
        | table pkvs =>
          show tableFind (TomlVal.table (dictSet pkvs "version" _)) "version" = _
          simp only [tableFind]
          exact assocFind_dictSet_same pkvs "version" (TomlVal.str nv)

theorem lookupProject_after_setProject (doc : TomlDoc) (nv : String)
    (h : (lookupProjectVersion doc).isSome = true) :
    lookupProjectVersion (setProjectVersion doc nv) = some (TomlVal.str nv) := by
  unfold lookupProjectVersion at h ⊢
  unfold setProjectVersion
  cases hproj : assocFind doc "project" with
  | none => rw [hproj] at h; simp at h
  | some p =>
    rw [hproj] at h
    rw [assocFind_setInTable_same, hproj]
    simp only [Option.map_some', Option.some_bind] at h ⊢
    cases p with
    | str s => simp [tableFind] at h
    | int n => simp [tableFind] at h
    | table pkvs =>
      show tableFind (TomlVal.table (dictSet pkvs "version" _)) "version" = _
      simp only [tableFind]
      exact assocFind_dictSet_same pkvs "version" (TomlVal.str nv)

theorem sync_pyproject_version_eq (doc : TomlDoc) (nv : String) :
    sync_pyproject_version doc nv
      = ((if (lookupProjectVersion
              (if (lookupPoetryVersion doc).isSome then setPoetryVersion doc nv else doc)).isSome
          then setProjectVersion
              (if (lookupPoetryVersion doc).isSome then setPoetryVersion doc nv else doc) nv
          else (if (lookupPoetryVersion doc).isSome then setPoetryVersion doc nv else doc)),
         !((lookupPoetryVersion doc).isSome
           || (lookupProjectVersion
              (if (lookupPoetryVersion doc).isSome then setPoetryVersion doc nv else doc)).isSome)) := rfl

/-- C2 (confirmed): on the parsed document, the TOML writer sets
tool.poetry.version whenever that table chain holds a version key, and
independently sets project.version whenever present, so both are set when
both are present; when neither is present it emits the warning and returns
the document unchanged.  The no-version case is stated on the parsed
document, matching the specification, which only promises file
preservation up to TOML serializer normalization. -/
theorem c2_theorem (doc : TomlDoc) (newVersion : String) :
    ((lookupPoetryVersion doc).isSome = true →
      lookupPoetryVersion (sync_pyproject_version doc newVersion).1
        = some (TomlVal.str newVersion))
    ∧ ((lookupProjectVersion doc).isSome = true →
      lookupProjectVersion (sync_pyproject_version doc newVersion).1
        = some (TomlVal.str newVersion))
    ∧ ((lookupPoetryVersion doc).isSome = false →
      (lookupProjectVersion doc).isSome = false →
      sync_pyproject_version doc newVersion = (doc, true)) := by
  rw [sync_pyproject_version_eq]
  by_cases h1 : (lookupPoetryVersion doc).isSome = true
  · rw [if_pos h1]
    have hframe : lookupProjectVersion (setPoetryVersion doc newVersion)
        = lookupProjectVersion doc := lookupProject_after_setPoetry doc newVersion
    by_cases h2 : (lookupProjectVersion doc).isSome = true
    · rw [hframe, if_pos h2]
      refine ⟨fun _ => ?_, fun _ => ?_, fun hcon => absurd h1 (by rw [hcon]; decide)⟩
      · rw [lookupPoetry_after_setProject,
          lookupPoetry_after_setPoetry doc newVersion h1]
      · exact lookupProject_after_setProject (setPoetryVersion doc newVersion) newVersion
          (by rw [hframe]; exact h2)
    · rw [hframe, if_neg h2]
      refine ⟨fun _ => ?_, fun hcon => absurd hcon h2,
        fun hcon => absurd h1 (by rw [hcon]; decide)⟩
      · exact lookupPoetry_after_setPoetry doc newVersion h1
  · rw [if_neg h1]
    by_cases h2 : (lookupProjectVersion doc).isSome = true
    · rw [if_pos h2]
      refine ⟨fun hcon => absurd hcon h1, fun _ => ?_, fun _ hcon => absurd hcon (by simp [h2])⟩
      · exact lookupProject_after_setProject doc newVersion h2
    · rw [if_neg h2]
      refine ⟨fun hcon => absurd hcon h1, fun hcon => absurd hcon h2, fun _ _ => ?_⟩
      have hb1 : (lookupPoetryVersion doc).isSome = false := by
        cases hh : (lookupPoetryVersion doc).isSome
        · rfl
        · exact absurd hh h1
      have hb2 : (lookupProjectVersion doc).isSome = false := by
        cases hh : (lookupProjectVersion doc).isSome
        · rfl
        · exact absurd hh h2
      rw [hb1, hb2]
      rfl

/-- C2 witness: a document carrying both tool.poetry.version and
project.version has both set; a document with neither is returned unchanged
with the warning. -/
theorem c2_witness :
    lookupPoetryVersion
        (sync_pyproject_version
          [("tool", TomlVal.table [("poetry", TomlVal.table [("version", TomlVal.str "1.0.0")])]),
           ("project", TomlVal.table [("version", TomlVal.str "1.0.0")])] "2.0.0").1
      = some (TomlVal.str "2.0.0")
    ∧ lookupProjectVersion
        (sync_pyproject_version
          [("tool", TomlVal.table [("poetry", TomlVal.table [("version", TomlVal.str "1.0.0")])]),
           ("project", TomlVal.table [("version", TomlVal.str "1.0.0")])] "2.0.0").1
      = some (TomlVal.str "2.0.0")
    ∧ sync_pyproject_version [("name", TomlVal.str "x")] "2.0.0"
      = ([("name", TomlVal.str "x")], true) :=
  ⟨(c2_theorem
      [("tool", TomlVal.table [("poetry", TomlVal.table [("version", TomlVal.str "1.0.0")])]),
       ("project", TomlVal.table [("version", TomlVal.str "1.0.0")])] "2.0.0").1 rfl,
   (c2_theorem
      [("tool", TomlVal.table [("poetry", TomlVal.table [("version", TomlVal.str "1.0.0")])]),
       ("project", TomlVal.table [("version", TomlVal.str "1.0.0")])] "2.0.0").2.1 rfl,
   (c2_theorem [("name", TomlVal.str "x")] "2.0.0").2.2 rfl rfl⟩

/-- C8 (confirmed): the TOML reader returns tool.poetry.version when
present; otherwise project.version when present; otherwise it fails with
the NotFound error naming the path. -/
theorem c8_theorem (path : String) (doc : TomlDoc) :
    (∀ v, lookupPoetryVersion doc = some v → get_pyproject_version path doc = Except.ok v)
    ∧ (lookupPoetryVersion doc = none →
      ∀ v, lookupProjectVersion doc = some v → get_pyproject_version path doc = Except.ok v)
    ∧ (lookupPoetryVersion doc = none → lookupProjectVersion doc = none →
      get_pyproject_version path doc = Except.error (TomlErr.notFound path)) := by
  refine ⟨?_, ?_, ?_⟩
  · intro v hv
    unfold get_pyproject_version
    rw [hv]
  · intro h0 v hv
    unfold get_pyproject_version
    rw [h0, hv]
  · intro h0 h1
    unfold get_pyproject_version
    rw [h0, h1]

/-- C8 witness: a project-only document reads its project.version; the empty
document fails naming the path. -/
theorem c8_witness :
    get_pyproject_version "pyproject.toml"
        [("project", TomlVal.table [("version", TomlVal.str "1.2.3")])]
      = Except.ok (TomlVal.str "1.2.3")
    ∧ get_pyproject_version "pyproject.toml" ([] : TomlDoc)
      = Except.error (TomlErr.notFound "pyproject.toml") :=
  ⟨( c8_theorem "pyproject.toml"
      [("project", TomlVal.table [("version", TomlVal.str "1.2.3")])]).2.1 rfl
      (TomlVal.str "1.2.3") rfl,
   ( c8_theorem "pyproject.toml" ([] : TomlDoc)).2.2 rfl rfl⟩

theorem sync_versions_eq_filter (report : List (TFile × Version)) (highest : Version) :
    sync_versions report highest
      = (report.filter (fun p => !(verEq p.2 highest))).map (fun p => p.1) := by
  induction report with
  | nil => rfl
  | cons p rest ih =>
    obtain ⟨f, v⟩ := p
    by_cases h : verEq v highest = true
    · simp only [sync_versions, if_pos h, List.filter_cons]
      simp [h, ih]
    · simp only [sync_versions, if_neg h, List.filter_cons]
      simp only [show verEq (f, v).2 highest = false from eq_false_of_ne_true h]
      simp [ih]

theorem dedup_of_all_eq {α : Type} [DecidableEq α] (a : α) :
    ∀ (l : List α), (∀ x ∈ l, x = a) → (a :: l).dedup = [a] := by
  intro l
  induction l with
  | nil => intro _; rfl
  | cons b rest ih =>
    intro h
    have hb : b = a := h b (List.mem_cons_self b rest)
    subst hb
    rw [List.dedup_cons_of_mem (List.mem_cons_self b rest)]
    exact ih (fun x hx => h x (List.mem_cons_of_mem b hx))

theorem dedup_length_one {α : Type} [DecidableEq α] (l : List α) (hne : l ≠ []) :
    l.dedup.length = 1 ↔ ∀ x ∈ l, ∀ y ∈ l, x = y := by
  constructor
  · intro h x hx y hy
    rcases List.length_eq_one.mp h with ⟨a, ha⟩
    have hxa : x = a := by
      have hxd : x ∈ l.dedup := List.mem_dedup.mpr hx
      rw [ha] at hxd
      exact List.mem_singleton.mp hxd
    have hya : y = a := by
      have hyd : y ∈ l.dedup := List.mem_dedup.mpr hy
      rw [ha] at hyd
      exact List.mem_singleton.mp hyd
    rw [hxa, hya]
  · intro h
    cases l with
    | nil => exact absurd rfl hne
    | cons a rest =>
      rw [dedup_of_all_eq a rest
        (fun x hx => h x (List.mem_cons_of_mem a hx) a (List.mem_cons_self a rest))]
      rfl

theorem distinctCount_one_iff (report : List (TFile × Version)) (hne : report ≠ []) :
    distinctCount (reportVersions report) = 1
      ↔ ∀ p ∈ report, ∀ q ∈ report, verEq p.2 q.2 = true := by
  have hmapne : ((reportVersions report).map verKey) ≠ [] := by
    cases report with
    | nil => exact absurd rfl hne
    | cons p rest => simp [reportVersions]
  unfold distinctCount
  rw [dedup_length_one _ hmapne]
  constructor
  · intro h p hp q hq
    rw [verEq_iff_key]
    exact h (verKey p.2)
      (List.mem_map_of_mem verKey (List.mem_map_of_mem _ hp))
      (verKey q.2)
      (List.mem_map_of_mem verKey (List.mem_map_of_mem _ hq))
  · intro h x hx y hy
    rcases List.mem_map.mp hx with ⟨vx, hvx, rfl⟩
    rcases List.mem_map.mp hy with ⟨vy, hvy, rfl⟩
    rcases List.mem_map.mp hvx with ⟨p, hp, rfl⟩
    rcases List.mem_map.mp hvy with ⟨q, hq, rfl⟩
    exact (verEq_iff_key _ _).mp (h p hp q hq)

/-- C4 (confirmed): on a successfully collected non-empty report in check
mode, main exits 0 exactly when the set of distinct Version values has
size one, equivalently when all parsed versions are equal under packaging
equality, and otherwise exits 1 after reporting every file with its
version. -/
theorem c4_theorem (report : List (TFile × Version)) (hne : report ≠ []) :
    ((mainCheck report).1 = 0 ∨ (mainCheck report).1 = 1)
    ∧ ((mainCheck report).1 = 0 ↔ distinctCount (reportVersions report) = 1)
    ∧ ((mainCheck report).1 = 0 ↔ ∀ p ∈ report, ∀ q ∈ report, verEq p.2 q.2 = true)
    ∧ ((mainCheck report).1 = 1 → (mainCheck report).2 = report)
    ∧ ((mainCheck report).1 = 0 → (mainCheck report).2 = []) := by
  unfold mainCheck
  by_cases hd : distinctCount (reportVersions report) = 1
  · rw [if_neg (by omega)]
    exact ⟨Or.inl rfl, by simp [hd],
      ⟨fun _ => (distinctCount_one_iff report hne).mp hd, fun _ => rfl⟩,
      fun h => absurd h (by decide), fun _ => rfl⟩
  · rw [if_pos (by omega)]
    exact ⟨Or.inr rfl, by simp [hd],
      ⟨fun h => absurd h (by simp),
       fun h => absurd ((distinctCount_one_iff report hne).mpr h) hd⟩,
      fun _ => rfl, fun h => absurd h (by simp)⟩

/-- C4 witness: two files at packaging-equal versions exit 0; two files at
different versions exit 1 and report both files. -/
theorem c4_witness :
    (mainCheck exReportEq).1 = 0
    ∧ (mainCheck exReportNe).1 = 1
    ∧ (mainCheck exReportNe).2 = exReportNe := by
  have h1 := c4_theorem exReportEq (by simp [exReportEq])
  have h2 := c4_theorem exReportNe (by simp [exReportNe])
  have hexit1 : (mainCheck exReportNe).1 = 1 := by
    rcases h2.1 with h | h
    · exact absurd (h2.2.2.1.mp h) (by decide)
    · exact h
  exact ⟨h1.2.2.1.mpr (by decide), hexit1, h2.2.2.2.1 hexit1⟩

/-- C3 (confirmed): on a non-empty report, sync computes the target as the
packaging maximum of the collected versions (so 1.10.0 beats 1.9.0 by
numeric component comparison), the target is one of the collected
versions, and the writers invoked are exactly those of the files whose
version differs from the target, in report order; files already equal to
the target under packaging equality receive no write. -/
theorem c3_theorem (report : List (TFile × Version)) (hne : report ≠ []) :
    ∃ target, highestOf report = some target
      ∧ (∀ p ∈ report, verLe p.2 target = true)
      ∧ (∃ p ∈ report, verEq p.2 target = true)
      ∧ sync_versions report target
        = (report.filter (fun p => !(verEq p.2 target))).map (fun p => p.1) := by
  cases report with
  | nil => exact absurd rfl hne
  | cons hd rest =>
    obtain ⟨f, v⟩ := hd
    refine ⟨pyMax v (reportVersions rest), rfl, ?_, ?_, sync_versions_eq_filter _ _⟩
    · intro q hq
      rcases List.mem_cons.mp hq with h | h
      · rw [h]
        exact pyMax_le_self (reportVersions rest) v
      · exact pyMax_ge_mem (reportVersions rest) v q.2 (List.mem_map_of_mem _ h)
    · rcases pyMax_mem_or_self (reportVersions rest) v with h | h
      · refine ⟨(f, v), List.mem_cons_self _ _, ?_⟩
        rw [h]
        exact verEq_refl v
      · rcases List.mem_map.mp h with ⟨q, hq, hq2⟩
        refine ⟨q, List.mem_cons_of_mem _ hq, ?_⟩
        rw [hq2]
        exact verEq_refl _

/-- C3 witness: with versions 1.9.0 and 1.10.0 the target is 1.10.0 (numeric,
not lexicographic, comparison), and the full max, attainment and
write-set description holds at that report. -/
theorem c3_witness :
    highestOf exReportMax = some ⟨[1, 10, 0]⟩
    ∧ ∃ target, highestOf exReportMax = some target
        ∧ (∀ p ∈ exReportMax, verLe p.2 target = true)
        ∧ (∃ p ∈ exReportMax, verEq p.2 target = true)
        ∧ sync_versions exReportMax target
          = (exReportMax.filter (fun p => !(verEq p.2 target))).map (fun p => p.1) :=
  ⟨by decide, c3_theorem exReportMax (by simp [exReportMax])⟩

/-- C9 (confirmed): the coordinator compares parsed Version values, not
strings: a non-empty report whose versions are all equal under packaging
equality is reported consistent with exit 0 even when their string forms
differ, and during sync a file whose Version equals the target under
packaging equality is never among the files written. -/
theorem c9_theorem :
    (∀ (report : List (TFile × Version)), report ≠ [] →
      (∀ p ∈ report, ∀ q ∈ report, verEq p.2 q.2 = true) → (mainCheck report).1 = 0)
    ∧ (∀ (report : List (TFile × Version)) (target : Version) (p : TFile × Version),
      p ∈ report → verEq p.2 target = true →
      (report.map (fun q => q.1)).Nodup → p.1 ∉ sync_versions report target) := by
  constructor
  · intro report hne h
    unfold mainCheck
    rw [if_neg (by rw [(distinctCount_one_iff report hne).mpr h]; omega)]
  · intro report target p hp hpeq hnd hmem
    rw [sync_versions_eq_filter] at hmem
    rcases List.mem_map.mp hmem with ⟨q, hqf, hq1⟩
    have hqr : q ∈ report := List.mem_of_mem_filter hqf
    have hqpred := List.of_mem_filter hqf
    have hqp : q = p := List.inj_on_of_nodup_map hnd hqr hp hq1
    rw [hqp] at hqpred
    rw [hpeq] at hqpred
    cases hqpred

/-- C9 witness: the strings 1.0 and 1.0.0 parse to different release tuples
that are packaging-equal, so a report holding them exits 0 in check mode,
and the file holding 1.0 is not rewritten when the target is 1.0.0. -/
theorem c9_witness :
    parseVersion "1.0" = some ⟨[1, 0]⟩
    ∧ parseVersion "1.0.0" = some ⟨[1, 0, 0]⟩
    ∧ (mainCheck exReportNorm).1 = 0
    ∧ (⟨0, FKind.packageJson⟩ : TFile) ∉ sync_versions exReportNorm ⟨[1, 0, 0]⟩ :=
  ⟨by decide, by decide,
   c9_theorem.1 exReportNorm (by simp [exReportNorm]) (by decide),
   c9_theorem.2 exReportNorm ⟨[1, 0, 0]⟩ ((⟨0, FKind.packageJson⟩ : TFile), (⟨[1, 0]⟩ : Version))
     (by simp [exReportNorm]) (by decide) (by simp [exReportNorm])⟩

theorem stripChars_sound (p : List Char) :
    ∀ cs r, stripChars p cs = some r → cs = p ++ r := by
  induction p with
  | nil =>
    intro cs r h
    cases h
    rfl
  | cons a ps ih =>
    intro cs r h
    cases cs with
    | nil => cases h
    | cons c cs2 =>
      unfold stripChars at h
      by_cases hca : c = a
      · rw [if_pos hca] at h
        rw [List.cons_append, hca, ih cs2 r h]
      · rw [if_neg hca] at h
        cases h

theorem stripChars_pre (p : List Char) : ∀ r, stripChars p (p ++ r) = some r := by
  induction p with
  | nil => intro r; rfl
  | cons a ps ih =>
    intro r
    show stripChars (a :: ps) (a :: (ps ++ r)) = some r
    unfold stripChars
    rw [if_pos rfl]
    exact ih r

theorem dropWhile_head_not {α : Type} (p : α → Bool) :
    ∀ (l : List α) (b : α) (bs : List α), l.dropWhile p = b :: bs → p b = false := by
  intro l
  induction l with
  | nil => intro b bs h; cases h
  | cons c cs ih =>
    intro b bs h
    rw [List.dropWhile_cons] at h
    by_cases hc : p c = true
    · rw [if_pos hc] at h
      exact ih b bs h
    · rw [if_neg hc] at h
      cases h
      exact eq_false_of_ne_true hc

theorem takeToQuote_sound (cs : List Char) (val : List Char) (q : Char) (rest : List Char)
    (h : takeToQuote cs = some (val, q, rest)) :
    cs = val ++ q :: rest
    ∧ (∀ c ∈ val, isQuoteChar c = false)
    ∧ isQuoteChar q = true := by
  unfold takeToQuote at h
  cases hd : cs.dropWhile (fun c => !(isQuoteChar c)) with
  | nil => rw [hd] at h; cases h
  | cons q2 rest2 =>
    rw [hd] at h
    cases h
    refine ⟨?_, ?_, ?_⟩
    · conv_lhs => rw [← List.takeWhile_append_dropWhile (fun c => !(isQuoteChar c)) cs]
      rw [hd]
    · intro c hc
      have := List.mem_takeWhile_imp hc
      simp at this
      exact this
    · have := dropWhile_head_not (fun c => !(isQuoteChar c)) cs q rest hd
      simp at this
      exact this

theorem takeWhile_notQuote_append (q : Char) (rest : List Char) (hq : isQuoteChar q = true) :
    ∀ val, (∀ c ∈ val, isQuoteChar c = false) →
      (val ++ q :: rest).takeWhile (fun c => !(isQuoteChar c)) = val := by
  intro val
  induction val with
  | nil => intro _; simp [List.takeWhile_cons, hq]
  | cons c cs ih =>
    intro hval
    rw [List.cons_append, List.takeWhile_cons]
    have hc := hval c (List.mem_cons_self c cs)
    rw [show (!(isQuoteChar c)) = true by simp [hc], if_pos rfl,
      ih (fun d hd => hval d (List.mem_cons_of_mem c hd))]

theorem dropWhile_notQuote_append (q : Char) (rest : List Char) (hq : isQuoteChar q = true) :
    ∀ val, (∀ c ∈ val, isQuoteChar c = false) →
      (val ++ q :: rest).dropWhile (fun c => !(isQuoteChar c)) = q :: rest := by
  intro val
  induction val with
  | nil => intro _; simp [List.dropWhile_cons, hq]
  | cons c cs ih =>
    intro hval
    rw [List.cons_append, List.dropWhile_cons]
    have hc := hval c (List.mem_cons_self c cs)
    rw [show (!(isQuoteChar c)) = true by simp [hc], if_pos rfl,
      ih (fun d hd => hval d (List.mem_cons_of_mem c hd))]

theorem takeToQuote_complete (val : List Char) (q : Char) (rest : List Char)
    (hval : ∀ c ∈ val, isQuoteChar c = false) (hq : isQuoteChar q = true) :
    takeToQuote (val ++ q :: rest) = some (val, q, rest) := by
  unfold takeToQuote
  rw [dropWhile_notQuote_append q rest hq val hval,
    takeWhile_notQuote_append q rest hq val hval]

theorem tryNameMatch_sound (nm cs g1t : List Char) (q : Char) (g6 : List Char)
    (h : tryNameMatch nm cs = some (g1t, q, g6)) :
    ∃ ws1 ws2 val q2,
      cs = nm ++ ws1 ++ '=' :: ws2 ++ q :: (val ++ q2 :: g6)
      ∧ g1t = nm ++ ws1 ++ '=' :: ws2
      ∧ (∀ c ∈ ws1, isPySpace c = true)
      ∧ (∀ c ∈ ws2, isPySpace c = true)
      ∧ (∀ c ∈ val, isQuoteChar c = false)
      ∧ isQuoteChar q = true ∧ isQuoteChar q2 = true := by
  unfold tryNameMatch at h
  cases hstrip : stripChars nm cs with
  | none => rw [hstrip] at h; cases h
  | some r1 =>
    simp only [hstrip] at h
    cases hr2 : r1.dropWhile isPySpace with
    | nil => simp only [hr2] at h; cases h
    | cons c r3 =>
      simp only [hr2] at h
      by_cases hc : c = '='
      · rw [if_pos hc] at h
        cases hr4 : r3.dropWhile isPySpace with
        | nil => simp only [hr4] at h; cases h
        | cons q0 r5 =>
          simp only [hr4] at h
          by_cases hq0 : isQuoteChar q0 = true
          · rw [if_pos hq0] at h
            cases htq : takeToQuote r5 with
            | none => simp only [htq] at h; cases h
            | some tri =>
              obtain ⟨val, q2, rest⟩ := tri
              simp only [htq] at h
              cases h
              rcases takeToQuote_sound r5 val q2 g6 htq with ⟨hr5, hval, hq2⟩
              refine ⟨r1.takeWhile isPySpace, r3.takeWhile isPySpace, val, q2,
                ?_, rfl, ?_, ?_, hval, hq0, hq2⟩
              · rw [stripChars_sound nm cs r1 hstrip]
                conv_lhs => rw [← List.takeWhile_append_dropWhile isPySpace r1]
                rw [hr2, hc]
                conv_lhs => rw [← List.takeWhile_append_dropWhile isPySpace r3]
                rw [hr4, hr5]
                simp [List.append_assoc]
              · intro d hd
                exact List.mem_takeWhile_imp hd
              · intro d hd
                exact List.mem_takeWhile_imp hd
          · rw [if_neg hq0] at h
            cases h
      · rw [if_neg hc] at h
        cases h

theorem tryNames_sound (pyvars : List String) :
    ∀ cs r, tryNames pyvars cs = some r →
      ∃ nm ∈ pyvars, tryNameMatch nm.data cs = some r := by
  induction pyvars with
  | nil => intro cs r h; cases h
  | cons n ns ih =>
    intro cs r h
    unfold tryNames at h
    cases hn : tryNameMatch n.data cs with
    | some r2 =>
      simp only [hn] at h
      cases h
      exact ⟨n, List.mem_cons_self n ns, hn⟩
    | none =>
      simp only [hn] at h
      rcases ih cs r h with ⟨nm, hmem, hm⟩
      exact ⟨nm, List.mem_cons_of_mem n hmem, hm⟩

theorem matchLine_sound (pyvars : List String) (line : String) (g1 : List Char) (q : Char)
    (g6 : List Char) (h : matchLine pyvars line = some (g1, q, g6)) :
    ∃ nm ∈ pyvars, ∃ ws0 ws1 ws2 val q2,
      line.data = ws0 ++ (nm.data ++ ws1 ++ '=' :: ws2 ++ q :: (val ++ q2 :: g6))
      ∧ g1 = ws0 ++ (nm.data ++ ws1 ++ '=' :: ws2)
      ∧ (∀ c ∈ ws0, isPySpace c = true)
      ∧ (∀ c ∈ ws1, isPySpace c = true)
      ∧ (∀ c ∈ ws2, isPySpace c = true)
      ∧ (∀ c ∈ val, isQuoteChar c = false)
      ∧ isQuoteChar q = true ∧ isQuoteChar q2 = true := by
  unfold matchLine at h
  cases ht : tryNames pyvars (line.data.dropWhile isPySpace) with
  | none => rw [ht] at h; cases h
  | some tri =>
    obtain ⟨g1t, q0, g60⟩ := tri
    simp only [ht] at h
    cases h
    rcases tryNames_sound pyvars (line.data.dropWhile isPySpace) (g1t, q, g6) ht
      with ⟨nm, hmem, hm⟩
    rcases tryNameMatch_sound nm.data (line.data.dropWhile isPySpace) g1t q g6 hm
      with ⟨ws1, ws2, val, q2, hcs, hg1t, hws1, hws2, hval, hq, hq2⟩
    refine ⟨nm, hmem, line.data.takeWhile isPySpace, ws1, ws2, val, q2, ?_, ?_, ?_,
      hws1, hws2, hval, hq, hq2⟩
    · conv_lhs => rw [← List.takeWhile_append_dropWhile isPySpace line.data]
      rw [hcs]
    · rw [hg1t]
    · intro d hd
      exact List.mem_takeWhile_imp hd

theorem sync_pyfile_lines (pyvars : List String) (newVersion : String) :
    ∀ lines, (sync_pyfile_version pyvars newVersion lines).1
      = lines.map (rewriteLine pyvars newVersion) := by
  intro lines
  induction lines with
  | nil => rfl
  | cons l ls ih =>
    show (rewriteLine pyvars newVersion l :: (sync_pyfile_version pyvars newVersion ls).1, _).1
        = _
    rw [List.map_cons]
    exact congrArg (rewriteLine pyvars newVersion l :: ·) ih

theorem sync_pyfile_found (pyvars : List String) (newVersion : String) :
    ∀ lines, (sync_pyfile_version pyvars newVersion lines).2 = false
      ↔ ∀ l ∈ lines, matchLine pyvars l = none := by
  intro lines
  induction lines with
  | nil => simp [sync_pyfile_version]
  | cons l ls ih =>
    show ((matchLine pyvars l).isSome || (sync_pyfile_version pyvars newVersion ls).2) = false
        ↔ _
    rw [Bool.or_eq_false_iff]
    constructor
    · rintro ⟨h1, h2⟩
      intro l2 hl2
      rcases List.mem_cons.mp hl2 with h | h
      · rw [h]
        exact Option.not_isSome_iff_eq_none.mp (by rw [h1]; decide)
      · exact (ih.mp h2) l2 h
    · intro hall
      constructor
      · rw [hall l (List.mem_cons_self l ls)]
        rfl
      · exact ih.mpr (fun l2 h => hall l2 (List.mem_cons_of_mem l h))

/-- C5 (amended): the source-text write maps every line through the pattern
rewrite: a line that matches decomposes as leading whitespace, a candidate
name, whitespace, the equals sign, whitespace, an opening quote, the
lazily matched value, a closing quote character of either kind (it need
not equal the opening one), and trailing content; the rewrite keeps the
leading assignment text and the trailing content, writes the new version
between two copies of the opening quote, and every non-matching line
passes through unchanged; the found flag is false exactly when no line
matches, and the file is then left unchanged without failing. -/
theorem c5_theorem (pyvars : List String) (newVersion : String) (lines : List String) :
    ((sync_pyfile_version pyvars newVersion lines).1
      = lines.map (rewriteLine pyvars newVersion))
    ∧ (∀ l, matchLine pyvars l = none → rewriteLine pyvars newVersion l = l)
    ∧ (∀ l g1 q g6, matchLine pyvars l = some (g1, q, g6) →
        rewriteLine pyvars newVersion l = String.mk (g1 ++ q :: (newVersion.data ++ q :: g6))
        ∧ ∃ nm ∈ pyvars, ∃ ws0 ws1 ws2 val q2,
          l.data = ws0 ++ (nm.data ++ ws1 ++ '=' :: ws2 ++ q :: (val ++ q2 :: g6))
          ∧ g1 = ws0 ++ (nm.data ++ ws1 ++ '=' :: ws2)
          ∧ (∀ c ∈ ws0, isPySpace c = true)
          ∧ (∀ c ∈ ws1, isPySpace c = true)
          ∧ (∀ c ∈ ws2, isPySpace c = true)
          ∧ (∀ c ∈ val, isQuoteChar c = false)
          ∧ isQuoteChar q = true ∧ isQuoteChar q2 = true)
    ∧ ((sync_pyfile_version pyvars newVersion lines).2 = false
        ↔ ∀ l ∈ lines, matchLine pyvars l = none)
    ∧ ((sync_pyfile_version pyvars newVersion lines).2 = false
        → (sync_pyfile_version pyvars newVersion lines).1 = lines) := by
  refine ⟨sync_pyfile_lines pyvars newVersion lines, ?_, ?_,
    sync_pyfile_found pyvars newVersion lines, ?_⟩
  · intro l h
    unfold rewriteLine
    rw [h]
  · intro l g1 q g6 h
    constructor
    · unfold rewriteLine
      rw [h]
    · exact matchLine_sound pyvars l g1 q g6 h
  · intro h
    rw [sync_pyfile_lines pyvars newVersion lines]
    have hall := (sync_pyfile_found pyvars newVersion lines).mp h
    calc lines.map (rewriteLine pyvars newVersion)
        = lines.map id := by
          apply List.map_congr_left
          intro l hl
          unfold rewriteLine
          rw [hall l hl]
          rfl
      _ = lines := List.map_id lines

/-- C5 witness: scenario D, VERSION = single-quoted 2.0.0 with a trailing
comment, synced to 3.0.0, keeps quote style and comment; and a file with
no matching line is left unchanged with the found flag off. -/
theorem c5_witness :
    rewriteLine ["VERSION"] "3.0.0" "VERSION = \x272.0.0\x27  # note"
      = "VERSION = \x273.0.0\x27  # note"
    ∧ (sync_pyfile_version ["VERSION"] "3.0.0" ["x = 1"]).2 = false
    ∧ (sync_pyfile_version ["VERSION"] "3.0.0" ["x = 1"]).1 = ["x = 1"] := by
  refine ⟨?_, by decide, ?_⟩
  · have h := (( c5_theorem ["VERSION"] "3.0.0" []).2.2.1
      "VERSION = \x272.0.0\x27  # note" ("VERSION = ".data) squote ("  # note".data)
      (by decide)).1
    rw [h]
    decide
  · exact ( c5_theorem ["VERSION"] "3.0.0" ["x = 1"]).2.2.2.2 (by decide)

/-- C5 counterexample: the line VERSION = single-quote 1.0 double-quote a
single-quote assigns the plain string literal whose value holds a double
quote; the claim demands that only the quoted value change, giving
VERSION = quoted 3.0.0, but the lazy pattern ends the value at the first
quote character of either kind, so the code emits
VERSION = quote 3.0.0 quote a quote, altering the literal structure. -/
theorem c5_counterexample :
    sync_pyfile_version ["VERSION"] "3.0.0" ["VERSION = \x271.0\x22a\x27"]
      = (["VERSION = \x273.0.0\x27a\x27"], true)
    ∧ "VERSION = \x273.0.0\x27a\x27" ≠ "VERSION = \x273.0.0\x27" := by
  constructor
  · rfl
  · decide

theorem parsePyFuel_nil (n : Nat) : parsePyFuel n [] = some [] := by
  cases n <;> rfl

theorem parsePyFuel_cons (n : Nat) (l1 : String) (rest : List String) :
    parsePyFuel (n + 1) (l1 :: rest)
      = match parseParenStart l1 with
        | some identcs =>
          match rest with
          | [] => none
          | l2 :: rest2 =>
            match parseParenEnd l2, parsePyFuel n rest2 with
            | some val, some t =>
              some (PyStmt.assign [PyTarget.name (String.mk identcs)]
                (PyExpr.constStr (String.mk val)) :: t)
            | _, _ => none
        | none =>
          match lineOne l1, parsePyFuel n rest with
          | some none, some t => some t
          | some (some s), some t => some (s :: t)
          | _, _ => none := rfl

theorem parsePyFuel_congr : ∀ (n m : Nat) (ls : List String),
    ls.length ≤ n → ls.length ≤ m → parsePyFuel n ls = parsePyFuel m ls := by
  intro n
  induction n with
  | zero =>
    intro m ls hn _
    cases ls with
    | nil => rw [parsePyFuel_nil, parsePyFuel_nil]
    | cons l1 rest => simp at hn
  | succ n ih =>
    intro m ls hn hm
    cases ls with
    | nil => rw [parsePyFuel_nil, parsePyFuel_nil]
    | cons l1 rest =>
      cases m with
      | zero => simp at hm
      | succ m =>
        simp only [List.length_cons] at hn hm
        rw [parsePyFuel_cons n, parsePyFuel_cons m]
        cases hps : parseParenStart l1 with
        | some identcs =>
          dsimp only
          cases rest with
          | nil => rfl
          | cons l2 rest2 =>
            dsimp only
            simp only [List.length_cons] at hn hm
            rw [ih m rest2 (by omega) (by omega)]
        | none =>
          dsimp only
          rw [ih m rest (by omega) (by omega)]

theorem parsePy_cons (l1 : String) (rest : List String) :
    parsePy (l1 :: rest)
      = match parseParenStart l1 with
        | some identcs =>
          match rest with
          | [] => none
          | l2 :: rest2 =>
            match parseParenEnd l2, parsePy rest2 with
            | some val, some t =>
              some (PyStmt.assign [PyTarget.name (String.mk identcs)]
                (PyExpr.constStr (String.mk val)) :: t)
            | _, _ => none
        | none =>
          match lineOne l1, parsePy rest with
          | some none, some t => some t
          | some (some s), some t => some (s :: t)
          | _, _ => none := by
  show parsePyFuel (rest.length + 1) (l1 :: rest) = _
  rw [parsePyFuel_cons]
  cases hps : parseParenStart l1 with
  | some identcs =>
    dsimp only
    cases rest with
    | nil => rfl
    | cons l2 rest2 =>
      dsimp only
      rw [parsePyFuel_congr (l2 :: rest2).length rest2.length rest2
        (by simp only [List.length_cons]; omega) (le_refl _)]
      rfl
  | none =>
    dsimp only
    rfl

theorem space_not_ident (c : Char) (h : isPySpace c = true) : isIdentChar c = false := by
  simp only [isPySpace, Bool.or_eq_true, decide_eq_true_eq] at h
  rcases h with ((((h | h) | h) | h) | h) | h <;> subst h <;> decide

theorem ident_not_space (c : Char) (h : isIdentChar c = true) : isPySpace c = false := by
  cases hsp : isPySpace c with
  | false => rfl
  | true => exact absurd h (by rw [space_not_ident c hsp]; decide)

theorem identStart_ident (c : Char) (h : isIdentStart c = true) : isIdentChar c = true := by
  simp only [isIdentStart, Bool.or_eq_true, decide_eq_true_eq] at h
  rcases h with h | h
  · simp [isIdentChar, h]
  · simp [isIdentChar, h]

theorem quote_not_space (c : Char) (h : isQuoteChar c = true) : isPySpace c = false := by
  simp only [isQuoteChar, Bool.or_eq_true, decide_eq_true_eq] at h
  rcases h with h | h <;> subst h <;> decide

theorem quote_not_ident (c : Char) (h : isQuoteChar c = true) : isIdentChar c = false := by
  simp only [isQuoteChar, Bool.or_eq_true, decide_eq_true_eq] at h
  rcases h with h | h <;> subst h <;> decide

theorem quote_ne_lparen (c : Char) (h : isQuoteChar c = true) : (c = '(') = False := by
  simp only [isQuoteChar, Bool.or_eq_true, decide_eq_true_eq] at h
  rcases h with h | h <;> subst h <;> simp [squote, dquote]

theorem ident_ne_hash (c : Char) (h : isIdentChar c = true) : (c = '#') = False := by
  simp only [eq_iff_iff, iff_false]
  intro hc
  rw [hc] at h
  exact absurd h (by decide)

theorem span_append (p : Char → Bool) :
    ∀ (a b : List Char), (∀ c ∈ a, p c = true) →
      (∀ c cs, b = c :: cs → p c = false) →
      (a ++ b).takeWhile p = a ∧ (a ++ b).dropWhile p = b := by
  intro a
  induction a with
  | nil =>
    intro b _ hb
    cases b with
    | nil => exact ⟨rfl, rfl⟩
    | cons c cs =>
      constructor
      · rw [List.nil_append, List.takeWhile_cons, hb c cs rfl]
        rfl
      · rw [List.nil_append, List.dropWhile_cons, hb c cs rfl]
        rfl
  | cons x xs ih =>
    intro b ha hb
    have hx : p x = true := ha x (List.mem_cons_self x xs)
    rcases ih b (fun c hc => ha c (List.mem_cons_of_mem x hc)) hb with ⟨h1, h2⟩
    constructor
    · rw [List.cons_append, List.takeWhile_cons, hx, if_pos rfl, h1]
    · rw [List.cons_append, List.dropWhile_cons, hx, if_pos rfl, h2]

theorem parseAfterEq_sound (r3 ws2 : List Char) (q : Char) (val tail : List Char)
    (h : parseAfterEq r3 = some (ws2, q, val, tail)) :
    r3 = ws2 ++ q :: (val ++ q :: tail)
    ∧ ws2 = r3.takeWhile isPySpace
    ∧ (∀ c ∈ ws2, isPySpace c = true)
    ∧ (∀ c ∈ val, isQuoteChar c = false)
    ∧ isQuoteChar q = true
    ∧ isCommentTail tail = true := by
  unfold parseAfterEq at h
  cases hr4 : r3.dropWhile isPySpace with
  | nil => simp only [hr4] at h; cases h
  | cons q0 r5 =>
    simp only [hr4] at h
    by_cases hq : isQuoteChar q0 = true
    · rw [if_pos hq] at h
      cases hd : r5.dropWhile (fun c => !(isQuoteChar c)) with
      | nil => simp only [hd] at h; cases h
      | cons q2 tail0 =>
        simp only [hd] at h
        by_cases hq2 : q2 = q0
        · rw [if_pos hq2] at h
          by_cases hct : isCommentTail tail0 = true
          · rw [if_pos hct] at h
            simp only [Option.some.injEq, Prod.mk.injEq] at h
            obtain ⟨hA, hB, hC, hD⟩ := h
            subst hB
            subst hD
            subst hq2
            refine ⟨?_, hA.symm, ?_, ?_, hq, hct⟩
            · conv_lhs => rw [← List.takeWhile_append_dropWhile isPySpace r3]
              rw [hr4, hA]
              conv_lhs =>
                rw [← List.takeWhile_append_dropWhile (fun c => !(isQuoteChar c)) r5]
              rw [hd, hC]
            · intro c hc
              rw [← hA] at hc
              exact List.mem_takeWhile_imp hc
            · intro c hc
              rw [← hC] at hc
              have := List.mem_takeWhile_imp hc
              simp at this
              exact this
          · rw [if_neg hct] at h
            cases h
        · rw [if_neg hq2] at h
          cases h
    · rw [if_neg hq] at h
      cases h

theorem parseAfterEq_complete (ws2 : List Char) (q : Char) (val tail : List Char)
    (hws2 : ∀ c ∈ ws2, isPySpace c = true) (hq : isQuoteChar q = true)
    (hval : ∀ c ∈ val, isQuoteChar c = false) (hct : isCommentTail tail = true) :
    parseAfterEq (ws2 ++ q :: (val ++ q :: tail)) = some (ws2, q, val, tail) := by
  rcases span_append isPySpace ws2 (q :: (val ++ q :: tail)) hws2
    (fun c cs hc => by cases hc; exact quote_not_space q hq) with ⟨htake, hdrop⟩
  unfold parseAfterEq
  rw [hdrop]
  dsimp only
  rw [if_pos hq, dropWhile_notQuote_append q tail hq val hval]
  dsimp only
  rw [if_pos rfl, if_pos hct, htake, takeWhile_notQuote_append q tail hq val hval]

theorem parseAfterIdent_sound (r1 ws1 ws2 : List Char) (q : Char) (val tail : List Char)
    (h : parseAfterIdent r1 = some (ws1, ws2, q, val, tail)) :
    r1 = ws1 ++ '=' :: (ws2 ++ q :: (val ++ q :: tail))
    ∧ ws1 = r1.takeWhile isPySpace
    ∧ (∀ c ∈ ws1, isPySpace c = true)
    ∧ (∀ c ∈ ws2, isPySpace c = true)
    ∧ (∀ c ∈ val, isQuoteChar c = false)
    ∧ isQuoteChar q = true
    ∧ isCommentTail tail = true := by
  unfold parseAfterIdent at h
  cases hr2 : r1.dropWhile isPySpace with
  | nil => simp only [hr2] at h; cases h
  | cons c r3 =>
    simp only [hr2] at h
    by_cases hc : c = '='
    · rw [if_pos hc] at h
      cases hpe : parseAfterEq r3 with
      | none => simp only [hpe] at h; cases h
      | some tup =>
        obtain ⟨ws2b, qb, valb, tailb⟩ := tup
        simp only [hpe, Option.some.injEq, Prod.mk.injEq] at h
        obtain ⟨hA, hB, hC, hD, hE⟩ := h
        rcases parseAfterEq_sound r3 ws2b qb valb tailb hpe
          with ⟨hr3, _, hws2, hval, hq, hct⟩
        rw [hB] at hws2
        rw [hD] at hval
        rw [hC] at hq
        rw [hE] at hct
        refine ⟨?_, hA.symm, ?_, hws2, hval, hq, hct⟩
        · conv_lhs => rw [← List.takeWhile_append_dropWhile isPySpace r1]
          rw [hr2, hc, hA, hr3, hB, hC, hD, hE]
        · intro d hd2
          rw [← hA] at hd2
          exact List.mem_takeWhile_imp hd2
    · rw [if_neg hc] at h
      cases h

theorem parseAfterIdent_complete (ws1 ws2 : List Char) (q : Char) (val tail : List Char)
    (hws1 : ∀ c ∈ ws1, isPySpace c = true)
    (hws2 : ∀ c ∈ ws2, isPySpace c = true) (hq : isQuoteChar q = true)
    (hval : ∀ c ∈ val, isQuoteChar c = false) (hct : isCommentTail tail = true) :
    parseAfterIdent (ws1 ++ '=' :: (ws2 ++ q :: (val ++ q :: tail)))
      = some (ws1, ws2, q, val, tail) := by
  rcases span_append isPySpace ws1 ('=' :: (ws2 ++ q :: (val ++ q :: tail))) hws1
    (fun c cs hc => by cases hc; decide) with ⟨htake, hdrop⟩
  unfold parseAfterIdent
  rw [hdrop]
  dsimp only
  rw [if_pos rfl, parseAfterEq_complete ws2 q val tail hws2 hq hval hct]
  dsimp only
  rw [htake]

theorem parseFlatAssign_sound (line : String) (fa : FlatAssign)
    (h : parseFlatAssign line = some fa) :
    line.data = fa.ws0 ++ (fa.ident
      ++ (fa.ws1 ++ '=' :: (fa.ws2 ++ fa.q :: (fa.val ++ fa.q :: fa.tail))))
    ∧ fa.ws0 = line.data.takeWhile isPySpace
    ∧ fa.ident = (line.data.dropWhile isPySpace).takeWhile isIdentChar
    ∧ (∃ c0 rest0, fa.ident = c0 :: rest0 ∧ isIdentStart c0 = true)
    ∧ (∀ c ∈ fa.ident, isIdentChar c = true)
    ∧ (∀ c ∈ fa.ws1, isPySpace c = true)
    ∧ (∀ c ∈ fa.ws2, isPySpace c = true)
    ∧ (∀ c ∈ fa.val, isQuoteChar c = false)
    ∧ isQuoteChar fa.q = true
    ∧ isCommentTail fa.tail = true := by
  unfold parseFlatAssign at h
  cases hid : (line.data.dropWhile isPySpace).takeWhile isIdentChar with
  | nil => simp only [hid] at h; cases h
  | cons c0 rest0 =>
    simp only [hid] at h
    by_cases hstart : isIdentStart c0 = true
    · rw [if_pos hstart] at h
      cases hpa : parseAfterIdent ((line.data.dropWhile isPySpace).dropWhile isIdentChar) with
      | none => simp only [hpa] at h; cases h
      | some tup =>
        obtain ⟨ws1b, ws2b, qb, valb, tailb⟩ := tup
        simp only [hpa] at h
        cases h
        rcases parseAfterIdent_sound _ ws1b ws2b qb valb tailb hpa
          with ⟨hr1, _, hws1, hws2, hval, hq, hct⟩
        refine ⟨?_, rfl, rfl, ⟨c0, rest0, rfl, hstart⟩, ?_, hws1, hws2, hval, hq, hct⟩
        · conv_lhs => rw [← List.takeWhile_append_dropWhile isPySpace line.data]
          have hsplit : line.data.dropWhile isPySpace
              = (c0 :: rest0) ++ ((line.data.dropWhile isPySpace).dropWhile isIdentChar) := by
            conv_lhs =>
              rw [← List.takeWhile_append_dropWhile isIdentChar (line.data.dropWhile isPySpace)]
            rw [hid]
          rw [hsplit, hr1]
        · intro c hc
          rw [← hid] at hc
          exact List.mem_takeWhile_imp hc
    · rw [if_neg hstart] at h
      cases h

theorem parseFlatAssign_complete (ws0 : List Char) (c0 : Char) (rest0 ws1 ws2 : List Char)
    (q : Char) (val tail : List Char)
    (hws0 : ∀ c ∈ ws0, isPySpace c = true)
    (hstart : isIdentStart c0 = true)
    (hident : ∀ c ∈ c0 :: rest0, isIdentChar c = true)
    (hws1 : ∀ c ∈ ws1, isPySpace c = true)
    (hws2 : ∀ c ∈ ws2, isPySpace c = true)
    (hq : isQuoteChar q = true)
    (hval : ∀ c ∈ val, isQuoteChar c = false)
    (hct : isCommentTail tail = true) :
    parseFlatAssign (String.mk (ws0
        ++ ((c0 :: rest0) ++ (ws1 ++ '=' :: (ws2 ++ q :: (val ++ q :: tail))))))
      = some ⟨ws0, c0 :: rest0, ws1, ws2, q, val, tail⟩ := by
  have hn1 : ∀ c cs, (c0 :: rest0) ++ (ws1 ++ '=' :: (ws2 ++ q :: (val ++ q :: tail)))
      = c :: cs → isPySpace c = false := by
    intro c cs hc
    rw [List.cons_append] at hc
    cases hc
    exact ident_not_space c0 (hident c0 (List.mem_cons_self c0 rest0))
  have hn2 : ∀ c cs, ws1 ++ '=' :: (ws2 ++ q :: (val ++ q :: tail))
      = c :: cs → isIdentChar c = false := by
    intro c cs hc
    cases hws1case : ws1 with
    | nil =>
      rw [hws1case, List.nil_append] at hc
      cases hc
      decide
    | cons w ws =>
      rw [hws1case, List.cons_append] at hc
      injection hc with h1 h2
      rw [← h1]
      exact space_not_ident w (hws1 w (by rw [hws1case]; exact List.mem_cons_self w ws))
  rcases span_append isPySpace ws0 _ hws0 hn1 with ⟨htake0, hdrop0⟩
  rcases span_append isIdentChar (c0 :: rest0) _ hident hn2 with ⟨htake1, hdrop1⟩
  unfold parseFlatAssign
  have hdata : (String.mk (ws0
      ++ ((c0 :: rest0) ++ (ws1 ++ '=' :: (ws2 ++ q :: (val ++ q :: tail)))))).data
      = ws0 ++ ((c0 :: rest0) ++ (ws1 ++ '=' :: (ws2 ++ q :: (val ++ q :: tail)))) := rfl
  rw [hdata, hdrop0, htake1]
  dsimp only
  rw [if_pos hstart, hdrop1, parseAfterIdent_complete ws1 ws2 q val tail hws1 hws2 hq hval hct]
  dsimp only
  rw [htake0]

theorem blankOrComment_of_flat (line : String) (fa : FlatAssign)
    (h : parseFlatAssign line = some fa) : blankOrComment line = false := by
  rcases parseFlatAssign_sound line fa h
    with ⟨_, _, hident, ⟨c0, rest0, hi, hstart⟩, hidchars, _⟩
  have hdrop : line.data.dropWhile isPySpace
      = (c0 :: rest0) ++ ((line.data.dropWhile isPySpace).dropWhile isIdentChar) := by
    conv_lhs =>
      rw [← List.takeWhile_append_dropWhile isIdentChar (line.data.dropWhile isPySpace)]
    rw [← hident, hi]
  unfold blankOrComment
  rw [hdrop, List.cons_append]
  have hc0 : isIdentChar c0 = true := identStart_ident c0 hstart
  have := ident_ne_hash c0 hc0
  simp [this]

theorem parseParenStart_of_flat (line : String) (fa : FlatAssign)
    (h : parseFlatAssign line = some fa) : parseParenStart line = none := by
  rcases parseFlatAssign_sound line fa h
    with ⟨hdataEq, hws0, hident, ⟨c0, rest0, hi, hstart⟩, hidchars, hws1, hws2, hval, hq, hct⟩
  have hn2 : ∀ c cs, fa.ws1 ++ '=' :: (fa.ws2 ++ fa.q :: (fa.val ++ fa.q :: fa.tail))
      = c :: cs → isIdentChar c = false := by
    intro c cs hc
    cases hws1case : fa.ws1 with
    | nil =>
      rw [hws1case, List.nil_append] at hc
      cases hc
      decide
    | cons w ws =>
      rw [hws1case, List.cons_append] at hc
      injection hc with h1 h2
      rw [← h1]
      exact space_not_ident w (hws1 w (by rw [hws1case]; exact List.mem_cons_self w ws))
  have hr0 : line.data.dropWhile isPySpace
      = fa.ident ++ (fa.ws1 ++ '=' :: (fa.ws2 ++ fa.q :: (fa.val ++ fa.q :: fa.tail))) := by
    have hidall : ∀ c ∈ fa.ident, isIdentChar c = true := hidchars
    have hdata2 : line.data
        = (fa.ws0 ++ fa.ident) ++ (fa.ws1 ++ '=' :: (fa.ws2 ++ fa.q :: (fa.val ++ fa.q :: fa.tail))) := by
      rw [hdataEq, List.append_assoc]
    have hn0 : ∀ c cs, fa.ident ++ (fa.ws1 ++ '=' :: (fa.ws2 ++ fa.q :: (fa.val ++ fa.q :: fa.tail)))
        = c :: cs → isPySpace c = false := by
      intro c cs hc
      rw [hi, List.cons_append] at hc
      cases hc
      exact ident_not_space c0 (identStart_ident c0 hstart)
    have hws0all : ∀ c ∈ fa.ws0, isPySpace c = true := by
      intro c hc
      rw [hws0] at hc
      exact List.mem_takeWhile_imp hc
    rcases span_append isPySpace fa.ws0 _ hws0all hn0 with ⟨_, hdrop⟩
    conv_lhs => rw [hdataEq]
    exact hdrop
  have hident2 : (line.data.dropWhile isPySpace).takeWhile isIdentChar = c0 :: rest0 := by
    rw [← hident, hi]
  have hdropIdent : (line.data.dropWhile isPySpace).dropWhile isIdentChar
      = fa.ws1 ++ '=' :: (fa.ws2 ++ fa.q :: (fa.val ++ fa.q :: fa.tail)) := by
    rw [hr0]
    exact (span_append isIdentChar fa.ident _ hidchars hn2).2
  have hdropSpace1 : (fa.ws1 ++ '=' :: (fa.ws2 ++ fa.q :: (fa.val ++ fa.q :: fa.tail))).dropWhile
      isPySpace = '=' :: (fa.ws2 ++ fa.q :: (fa.val ++ fa.q :: fa.tail)) :=
    (span_append isPySpace fa.ws1 _ hws1 (fun c cs hc => by cases hc; decide)).2
  have hdropSpace2 : (fa.ws2 ++ fa.q :: (fa.val ++ fa.q :: fa.tail)).dropWhile isPySpace
      = fa.q :: (fa.val ++ fa.q :: fa.tail) :=
    (span_append isPySpace fa.ws2 _ hws2 (fun c cs hc => by cases hc; exact quote_not_space _ hq)).2
  unfold parseParenStart
  rw [hident2]
  dsimp only
  rw [if_pos hstart, hdropIdent, hdropSpace1]
  split
  · rename_i r3 heq
    rw [List.cons.injEq] at heq
    rw [← heq.2, hdropSpace2]
    split
    · rename_i r4 heq2
      rw [List.cons.injEq] at heq2
      exact absurd heq2.1 (by rw [quote_ne_lparen fa.q hq]; exact not_false)
    · rfl
  · rfl

theorem lineOne_flat (line : String) (fa : FlatAssign) (h : parseFlatAssign line = some fa) :
    lineOne line = some (some (PyStmt.assign [PyTarget.name (String.mk fa.ident)]
      (PyExpr.constStr (String.mk fa.val)))) := by
  unfold lineOne
  simp only [blankOrComment_of_flat line fa h, Bool.false_eq_true, if_false, h]

theorem eqSign_tail_not_ident (ws r : List Char) (hws : ∀ c ∈ ws, isPySpace c = true) :
    ∀ c cs, ws ++ '=' :: r = c :: cs → isIdentChar c = false := by
  intro c cs hc
  cases hwsc : ws with
  | nil =>
    rw [hwsc, List.nil_append] at hc
    injection hc with h1 _
    rw [← h1]
    decide
  | cons w ws2 =>
    rw [hwsc, List.cons_append] at hc
    injection hc with h1 _
    rw [← h1]
    exact space_not_ident w (hws w (by rw [hwsc]; exact List.mem_cons_self w ws2))

theorem takeWhile_forcing (p : Char → Bool) (a b x y : List Char)
    (h : a ++ x = b ++ y)
    (ha : ∀ c ∈ a, p c = true) (hb : ∀ c ∈ b, p c = true)
    (hx : ∀ c cs, x = c :: cs → p c = false)
    (hy : ∀ c cs, y = c :: cs → p c = false) : a = b := by
  have h1 := (span_append p a x ha hx).1
  have h2 := (span_append p b y hb hy).1
  rw [← h1, ← h2, h]

theorem contains_of_mem (l : List String) (a : String) (h : a ∈ l) : l.contains a = true := by
  induction l with
  | nil => cases h
  | cons b bs ih =>
    rcases List.mem_cons.mp h with h1 | h2
    · simp [List.contains_cons, h1]
    · simp only [List.contains_cons, Bool.or_eq_true]
      exact Or.inr (ih h2)

theorem flat_decomp (line : String) (fa : FlatAssign) (h : parseFlatAssign line = some fa) :
    line.data.dropWhile isPySpace
      = fa.ident ++ (fa.ws1 ++ '=' :: (fa.ws2 ++ fa.q :: (fa.val ++ fa.q :: fa.tail)))
    ∧ line.data.takeWhile isPySpace = fa.ws0 := by
  rcases parseFlatAssign_sound line fa h with
    ⟨hdata, hws0, _, ⟨c0, rest0, hi, hstart⟩, _, _, _, _, _, _⟩
  have hn0 : ∀ c cs,
      fa.ident ++ (fa.ws1 ++ '=' :: (fa.ws2 ++ fa.q :: (fa.val ++ fa.q :: fa.tail))) = c :: cs →
      isPySpace c = false := by
    intro c cs hc
    rw [hi, List.cons_append] at hc
    injection hc with h1 _
    rw [← h1]
    exact ident_not_space c0 (identStart_ident c0 hstart)
  have hws0all : ∀ c ∈ fa.ws0, isPySpace c = true := by
    intro c hc
    rw [hws0] at hc
    exact List.mem_takeWhile_imp hc
  have hsp := span_append isPySpace fa.ws0 _ hws0all hn0
  constructor
  · conv_lhs => rw [hdata]
    exact hsp.2
  · conv_lhs => rw [hdata]
    exact hsp.1

theorem tryNameMatch_flat (ident ws1 ws2 : List Char) (q : Char) (val tail : List Char)
    (hws1 : ∀ c ∈ ws1, isPySpace c = true)
    (hws2 : ∀ c ∈ ws2, isPySpace c = true)
    (hq : isQuoteChar q = true)
    (hval : ∀ c ∈ val, isQuoteChar c = false) :
    tryNameMatch ident (ident ++ (ws1 ++ '=' :: (ws2 ++ q :: (val ++ q :: tail))))
      = some ((ident ++ ws1) ++ '=' :: ws2, q, tail) := by
  have hspan1 := span_append isPySpace ws1 ('=' :: (ws2 ++ q :: (val ++ q :: tail))) hws1
    (fun c cs hc => by injection hc with h1 _; rw [← h1]; decide)
  have hspan2 := span_append isPySpace ws2 (q :: (val ++ q :: tail)) hws2
    (fun c cs hc => by injection hc with h1 _; rw [← h1]; exact quote_not_space q hq)
  unfold tryNameMatch
  rw [stripChars_pre]
  dsimp only
  rw [hspan1.2]
  dsimp only
  rw [if_pos rfl, hspan2.2]
  dsimp only
  rw [if_pos hq, takeToQuote_complete val q tail hval hq]
  dsimp only
  rw [hspan1.1, hspan2.1]

theorem tryNameMatch_flat_ne (nm ident ws1 rest2 : List Char)
    (hnm : ∀ c ∈ nm, isIdentChar c = true)
    (hident : ∀ c ∈ ident, isIdentChar c = true)
    (hws1 : ∀ c ∈ ws1, isPySpace c = true)
    (hne : nm ≠ ident) :
    tryNameMatch nm (ident ++ (ws1 ++ '=' :: rest2)) = none := by
  cases h : tryNameMatch nm (ident ++ (ws1 ++ '=' :: rest2)) with
  | none => rfl
  | some tri =>
    exfalso
    obtain ⟨g1t, q, g6⟩ := tri
    rcases tryNameMatch_sound nm _ g1t q g6 h with
      ⟨wsA, wsB, valm, q2, hcs, _, hwsA, _, _, _, _⟩
    have hcs2 : ident ++ (ws1 ++ '=' :: rest2)
        = nm ++ (wsA ++ '=' :: (wsB ++ q :: (valm ++ q2 :: g6))) := by
      rw [hcs]
      simp [List.append_assoc]
    have hforce : ident = nm :=
      takeWhile_forcing isIdentChar ident nm _ _ hcs2 hident hnm
        (eqSign_tail_not_ident ws1 rest2 hws1)
        (eqSign_tail_not_ident wsA _ hwsA)
    exact hne hforce.symm

theorem tryNames_flat (pyvars : List String) (ident ws1 ws2 : List Char) (q : Char)
    (val tail : List Char)
    (hident : ∀ c ∈ ident, isIdentChar c = true)
    (hws1 : ∀ c ∈ ws1, isPySpace c = true)
    (hws2 : ∀ c ∈ ws2, isPySpace c = true)
    (hq : isQuoteChar q = true)
    (hval : ∀ c ∈ val, isQuoteChar c = false)
    (hgood : goodVars pyvars = true)
    (hmem : pyvars.contains (String.mk ident) = true) :
    tryNames pyvars (ident ++ (ws1 ++ '=' :: (ws2 ++ q :: (val ++ q :: tail))))
      = some ((ident ++ ws1) ++ '=' :: ws2, q, tail) := by
  revert hgood hmem
  induction pyvars with
  | nil =>
    intro _ hmem
    exact Bool.noConfusion hmem
  | cons n ns ih =>
    intro hgood hmem
    simp only [goodVars, List.all_cons, Bool.and_eq_true] at hgood
    by_cases hn : n.data = ident
    · have hmatch : tryNameMatch n.data
          (ident ++ (ws1 ++ '=' :: (ws2 ++ q :: (val ++ q :: tail))))
          = some ((ident ++ ws1) ++ '=' :: ws2, q, tail) := by
        rw [hn]
        exact tryNameMatch_flat ident ws1 ws2 q val tail hws1 hws2 hq hval
      unfold tryNames
      simp only [hmatch]
    · have hnall : ∀ c ∈ n.data, isIdentChar c = true := by
        have hg1 := hgood.1
        simp only [goodVar, Bool.and_eq_true, List.all_eq_true] at hg1
        exact hg1.2
      have hfail := tryNameMatch_flat_ne n.data ident ws1
        (ws2 ++ q :: (val ++ q :: tail)) hnall hident hws1 hn
      simp only [List.contains_cons, Bool.or_eq_true, beq_iff_eq] at hmem
      rcases hmem with hmem1 | hmem2
      · exact absurd (congrArg String.data hmem1).symm hn
      · unfold tryNames
        simp only [hfail]
        exact ih hgood.2 hmem2

theorem matchLine_flat (pyvars : List String) (line : String) (fa : FlatAssign)
    (hgood : goodVars pyvars = true)
    (hpf : parseFlatAssign line = some fa)
    (hmem : pyvars.contains (String.mk fa.ident) = true) :
    matchLine pyvars line
      = some (fa.ws0 ++ ((fa.ident ++ fa.ws1) ++ '=' :: fa.ws2), fa.q, fa.tail) := by
  rcases parseFlatAssign_sound line fa hpf with
    ⟨_, _, _, _, hidchars, hws1, hws2, hval, hq, _⟩
  rcases flat_decomp line fa hpf with ⟨hdrop, htake⟩
  unfold matchLine
  rw [hdrop, tryNames_flat pyvars fa.ident fa.ws1 fa.ws2 fa.q fa.val fa.tail hidchars
    hws1 hws2 hq hval hgood hmem]
  dsimp only
  rw [htake]

theorem lineOne_cases (line : String) (h : (lineOne line).isSome = true) :
    blankOrComment line = true ∨ (∃ fa, parseFlatAssign line = some fa)
    ∨ passLine line = true := by
  by_cases hbc : blankOrComment line = true
  · exact Or.inl hbc
  · cases hpf : parseFlatAssign line with
    | some fa => exact Or.inr (Or.inl ⟨fa, rfl⟩)
    | none =>
      by_cases hps : passLine line = true
      · exact Or.inr (Or.inr hps)
      · exfalso
        unfold lineOne at h
        rw [if_neg hbc] at h
        simp only [hpf] at h
        rw [if_neg hps] at h
        simp at h

theorem matchLine_none_of_nocand (pyvars : List String) (line : String)
    (hgood : goodVars pyvars = true)
    (hok : (lineOne line).isSome = true)
    (hnc : hasCandidateLine pyvars line = false) :
    matchLine pyvars line = none := by
  cases h : matchLine pyvars line with
  | none => rfl
  | some tri =>
    exfalso
    obtain ⟨g1, q, g6⟩ := tri
    rcases matchLine_sound pyvars line g1 q g6 h with
      ⟨nm, hmemN, ws0, wsA, wsB, valm, q2, hdata2, _, hws0m, hwsAm, hwsBm, hvalm, hqm, hq2m⟩
    have hgn : goodVar nm = true := by
      unfold goodVars at hgood
      exact List.all_eq_true.mp hgood nm hmemN
    simp only [goodVar, Bool.and_eq_true, List.all_eq_true] at hgn
    have hnmne : nm.data ≠ [] := by
      intro hnil
      have h1 := hgn.1
      rw [hnil] at h1
      exact absurd h1 (by decide)
    have hnmid : ∀ c ∈ nm.data, isIdentChar c = true := hgn.2
    have hdropm : line.data.dropWhile isPySpace
        = nm.data ++ (wsA ++ '=' :: (wsB ++ q :: (valm ++ q2 :: g6))) := by
      have hn0 : ∀ c cs, nm.data ++ (wsA ++ '=' :: (wsB ++ q :: (valm ++ q2 :: g6)))
          = c :: cs → isPySpace c = false := by
        intro c cs hc
        cases hnm0 : nm.data with
        | nil => exact absurd hnm0 hnmne
        | cons a as =>
          rw [hnm0, List.cons_append] at hc
          injection hc with h1 _
          rw [← h1]
          exact ident_not_space a (hnmid a (by rw [hnm0]; exact List.mem_cons_self a as))
      have hdata3 : line.data
          = ws0 ++ (nm.data ++ (wsA ++ '=' :: (wsB ++ q :: (valm ++ q2 :: g6)))) := by
        rw [hdata2]
        simp [List.append_assoc]
      rw [hdata3]
      exact (span_append isPySpace ws0 _ hws0m hn0).2
    rcases lineOne_cases line hok with hbc | ⟨fa, hpf⟩ | hps
    · cases hnm0 : nm.data with
      | nil => exact absurd hnm0 hnmne
      | cons a as =>
        rw [hnm0, List.cons_append] at hdropm
        unfold blankOrComment at hbc
        simp only [hdropm, decide_eq_true_eq] at hbc
        have ha : isIdentChar a = true := hnmid a (by rw [hnm0]; exact List.mem_cons_self a as)
        exact absurd hbc (by rw [ident_ne_hash a ha]; exact not_false)
    · rcases parseFlatAssign_sound line fa hpf with
        ⟨_, _, _, _, hidchars, hws1f, _, _, _, _⟩
      rcases flat_decomp line fa hpf with ⟨hdrop2, _⟩
      have heq2 : fa.ident ++ (fa.ws1 ++ '=' :: (fa.ws2 ++ fa.q :: (fa.val ++ fa.q :: fa.tail)))
          = nm.data ++ (wsA ++ '=' :: (wsB ++ q :: (valm ++ q2 :: g6))) := by
        rw [← hdrop2]
        exact hdropm
      have hforce : fa.ident = nm.data :=
        takeWhile_forcing isIdentChar fa.ident nm.data _ _ heq2 hidchars hnmid
          (eqSign_tail_not_ident fa.ws1 _ hws1f)
          (eqSign_tail_not_ident wsA _ hwsAm)
      unfold hasCandidateLine at hnc
      simp only [hpf] at hnc
      rw [hforce] at hnc
      have hcontains : pyvars.contains nm = true := contains_of_mem pyvars nm hmemN
      rw [show String.mk nm.data = nm from rfl] at hnc
      rw [hnc] at hcontains
      exact Bool.noConfusion hcontains
    · simp only [passLine, Bool.and_eq_true, beq_iff_eq, List.all_eq_true] at hps
      obtain ⟨hp1, hp2⟩ := hps
      have hD : line.data.dropWhile isPySpace
          = "pass".data ++ (line.data.dropWhile isPySpace).dropWhile
            (fun c => !(isPySpace c)) := by
        conv_lhs => rw [← List.takeWhile_append_dropWhile (fun c => !(isPySpace c))
          (line.data.dropWhile isPySpace)]
        rw [hp1]
      have hmemEq : '=' ∈ line.data.dropWhile isPySpace := by
        rw [hdropm]
        refine List.mem_append_right _ (List.mem_append_right _ ?_)
        exact List.mem_cons_self '=' _
      rw [hD] at hmemEq
      rcases List.mem_append.mp hmemEq with hin | hin
      · exact absurd hin (by decide)
      · exact absurd (hp2 '=' hin) (by decide)

theorem joinDots_mem (parts : List (List Char)) (c : Char) (hc : c ∈ joinDots parts) :
    c = '.' ∨ ∃ p ∈ parts, c ∈ p := by
  induction parts with
  | nil => simp [joinDots] at hc
  | cons p ps ih =>
    cases ps with
    | nil =>
      right
      exact ⟨p, List.mem_cons_self p [], hc⟩
    | cons p2 ps2 =>
      rw [show joinDots (p :: p2 :: ps2) = p ++ '.' :: joinDots (p2 :: ps2) from rfl] at hc
      rcases List.mem_append.mp hc with hin | hin
      · exact Or.inr ⟨p, List.mem_cons_self p _, hin⟩
      · rcases List.mem_cons.mp hin with h1 | h1
        · exact Or.inl h1
        · rcases ih h1 with h2 | ⟨pp, hpp, hcp⟩
          · exact Or.inl h2
          · exact Or.inr ⟨pp, List.mem_cons_of_mem p hpp, hcp⟩

theorem natRepr_no_quote (n : Nat) (c : Char) (hc : c ∈ natRepr n) :
    isQuoteChar c = false := by
  have hr := natRepr_toNat_range n c hc
  cases hq : isQuoteChar c with
  | false => rfl
  | true =>
    exfalso
    simp only [isQuoteChar, Bool.or_eq_true, decide_eq_true_eq] at hq
    rcases hq with h | h <;> rw [h] at hr <;> exact absurd hr.1 (by decide)

theorem verToString_no_quote (v : Version) :
    ∀ c ∈ (verToString v).data, isQuoteChar c = false := by
  intro c hc
  rcases joinDots_mem (v.release.map natRepr) c hc with h | ⟨p, hp, hcp⟩
  · rw [h]; decide
  · rcases List.mem_map.mp hp with ⟨n, _, hn⟩
    rw [← hn] at hcp
    exact natRepr_no_quote n c hcp

theorem lineOne_shape (line : String) (o : Option PyStmt) (h : lineOne line = some o) :
    ((o = none ∨ o = some PyStmt.simple) ∧ parseFlatAssign line = none)
    ∨ ∃ fa, parseFlatAssign line = some fa
        ∧ o = some (PyStmt.assign [PyTarget.name (String.mk fa.ident)]
            (PyExpr.constStr (String.mk fa.val))) := by
  unfold lineOne at h
  by_cases hbc : blankOrComment line = true
  · rw [if_pos hbc] at h
    injection h with h1
    left
    refine ⟨Or.inl h1.symm, ?_⟩
    cases hpf : parseFlatAssign line with
    | none => rfl
    | some fa => exact absurd hbc (by rw [blankOrComment_of_flat line fa hpf]; exact Bool.noConfusion)
  · rw [if_neg hbc] at h
    cases hpf : parseFlatAssign line with
    | some fa =>
      simp only [hpf] at h
      injection h with h1
      exact Or.inr ⟨fa, rfl, h1.symm⟩
    | none =>
      simp only [hpf] at h
      by_cases hps : passLine line = true
      · rw [if_pos hps] at h
        injection h with h1
        exact Or.inl ⟨Or.inr h1.symm, rfl⟩
      · rw [if_neg hps] at h
        cases h

theorem targetHit_single (pyvars : List String) (x : String) :
    targetHit pyvars [PyTarget.name x] = pyvars.contains x := by
  simp [targetHit, List.any_cons, List.any_nil]

theorem rewriteLine_nocand (pyvars : List String) (nv : String) (line : String)
    (hgood : goodVars pyvars = true)
    (hok : (lineOne line).isSome = true)
    (hnc : hasCandidateLine pyvars line = false) :
    rewriteLine pyvars nv line = line := by
  unfold rewriteLine
  rw [matchLine_none_of_nocand pyvars line hgood hok hnc]

theorem rewriteLine_cand (pyvars : List String) (nv : String) (line : String) (fa : FlatAssign)
    (hgood : goodVars pyvars = true)
    (hpf : parseFlatAssign line = some fa)
    (hmem : pyvars.contains (String.mk fa.ident) = true) :
    rewriteLine pyvars nv line
      = String.mk (fa.ws0 ++ (fa.ident ++ (fa.ws1 ++ '=' :: (fa.ws2 ++ fa.q ::
          (nv.data ++ fa.q :: fa.tail))))) := by
  unfold rewriteLine
  rw [matchLine_flat pyvars line fa hgood hpf hmem]
  dsimp only
  exact congrArg String.mk (by simp [List.append_assoc])

theorem parseFlatAssign_rewrite (pyvars : List String) (nv : String) (line : String)
    (fa : FlatAssign)
    (hgood : goodVars pyvars = true)
    (hpf : parseFlatAssign line = some fa)
    (hmem : pyvars.contains (String.mk fa.ident) = true)
    (hnv : ∀ c ∈ nv.data, isQuoteChar c = false) :
    parseFlatAssign (rewriteLine pyvars nv line)
      = some ⟨fa.ws0, fa.ident, fa.ws1, fa.ws2, fa.q, nv.data, fa.tail⟩ := by
  rcases parseFlatAssign_sound line fa hpf with
    ⟨_, hws0, _, ⟨c0, rest0, hi, hstart⟩, hidchars, hws1, hws2, _, hq, hct⟩
  rw [rewriteLine_cand pyvars nv line fa hgood hpf hmem]
  have hws0all : ∀ c ∈ fa.ws0, isPySpace c = true := by
    intro c hc
    rw [hws0] at hc
    exact List.mem_takeWhile_imp hc
  have hcomp := parseFlatAssign_complete fa.ws0 c0 rest0 fa.ws1 fa.ws2 fa.q nv.data fa.tail
    hws0all hstart (by rw [← hi]; exact hidchars) hws1 hws2 hq hnv hct
  rw [← hi] at hcomp
  exact hcomp

theorem flat_rewrite_line (pyvars : List String) (nv : String) (l : String)
    (hgood : goodVars pyvars = true) (hok : flatLineOk l = true)
    (hnv : ∀ c ∈ nv.data, isQuoteChar c = false) :
    flatLineOk (rewriteLine pyvars nv l) = true
    ∧ lineOne (rewriteLine pyvars nv l)
        = (lineOne l).map (Option.map (retargetStmt pyvars nv)) := by
  simp only [flatLineOk, Bool.and_eq_true] at hok
  rcases Option.isSome_iff_exists.mp hok.2 with ⟨o, ho⟩
  rcases lineOne_shape l o ho with ⟨hshape, hpfn⟩ | ⟨fa, hpf, hoeq⟩
  · have hnc : hasCandidateLine pyvars l = false := by
      unfold hasCandidateLine
      rw [hpfn]
    have hrw : rewriteLine pyvars nv l = l :=
      rewriteLine_nocand pyvars nv l hgood hok.2 hnc
    rw [hrw]
    constructor
    · simp only [flatLineOk, Bool.and_eq_true]
      exact ⟨hok.1, hok.2⟩
    · rw [ho]
      rcases hshape with rfl | rfl
      · rfl
      · rfl
  · cases hmem : pyvars.contains (String.mk fa.ident) with
    | false =>
      have hnc : hasCandidateLine pyvars l = false := by
        unfold hasCandidateLine
        simp only [hpf]
        exact hmem
      have hrw : rewriteLine pyvars nv l = l :=
        rewriteLine_nocand pyvars nv l hgood hok.2 hnc
      rw [hrw]
      constructor
      · simp only [flatLineOk, Bool.and_eq_true]
        exact ⟨hok.1, hok.2⟩
      · rw [ho, hoeq]
        have hth : targetHit pyvars [PyTarget.name (String.mk fa.ident)] = false := by
          rw [targetHit_single]
          exact hmem
        simp [retargetStmt, hth]
    | true =>
      have hre := parseFlatAssign_rewrite pyvars nv l fa hgood hpf hmem hnv
      have hl1 := lineOne_flat (rewriteLine pyvars nv l) _ hre
      constructor
      · simp only [flatLineOk, Bool.and_eq_true]
        refine ⟨?_, ?_⟩
        · rw [parseParenStart_of_flat (rewriteLine pyvars nv l) _ hre]
          rfl
        · rw [hl1]
          rfl
      · rw [hl1, ho, hoeq]
        have hth : targetHit pyvars [PyTarget.name (String.mk fa.ident)] = true := by
          rw [targetHit_single]
          exact hmem
        simp [retargetStmt, hth]

theorem flatPyFile_rewrite (pyvars : List String) (nv : String) (lines : List String)
    (hgood : goodVars pyvars = true) (hf : flatPyFile lines = true)
    (hnv : ∀ c ∈ nv.data, isQuoteChar c = false) :
    flatPyFile (lines.map (rewriteLine pyvars nv)) = true := by
  unfold flatPyFile at hf ⊢
  rw [List.all_eq_true] at hf ⊢
  intro x hx
  rcases List.mem_map.mp hx with ⟨l, hl, rfl⟩
  exact (flat_rewrite_line pyvars nv l hgood (hf l hl) hnv).1

theorem flatTreeOf_cons_eq (l : String) (ls : List String) (o : Option PyStmt)
    (h : lineOne l = some o) :
    flatTreeOf (l :: ls)
      = (match o with | some s => s :: flatTreeOf ls | none => flatTreeOf ls) := by
  unfold flatTreeOf
  rw [List.filterMap_cons]
  cases o with
  | none => simp only [h]
  | some s => simp only [h]

theorem flatTreeOf_rewrite (pyvars : List String) (nv : String) (lines : List String)
    (hgood : goodVars pyvars = true) (hf : flatPyFile lines = true)
    (hnv : ∀ c ∈ nv.data, isQuoteChar c = false) :
    flatTreeOf (lines.map (rewriteLine pyvars nv))
      = (flatTreeOf lines).map (retargetStmt pyvars nv) := by
  revert hf
  induction lines with
  | nil => intro _; rfl
  | cons l ls ih =>
    intro hf
    simp only [flatPyFile, List.all_cons, Bool.and_eq_true] at hf
    have hok1 := hf.1
    simp only [flatLineOk, Bool.and_eq_true] at hok1
    rcases Option.isSome_iff_exists.mp hok1.2 with ⟨o, ho⟩
    have h2 := (flat_rewrite_line pyvars nv l hgood hf.1 hnv).2
    rw [ho] at h2
    rw [List.map_cons,
      flatTreeOf_cons_eq (rewriteLine pyvars nv l) (ls.map (rewriteLine pyvars nv))
        (Option.map (retargetStmt pyvars nv) o) h2,
      flatTreeOf_cons_eq l ls o ho]
    cases o with
    | none =>
      simp only [Option.map]
      exact ih hf.2
    | some s =>
      simp only [Option.map]
      rw [List.map_cons, ih hf.2]

theorem parsePy_flat (lines : List String) (hf : flatPyFile lines = true) :
    parsePy lines = some (flatTreeOf lines) := by
  revert hf
  induction lines with
  | nil => intro _; rfl
  | cons l ls ih =>
    intro hf
    simp only [flatPyFile, List.all_cons, Bool.and_eq_true] at hf
    have hok1 := hf.1
    simp only [flatLineOk, Bool.and_eq_true] at hok1
    have hpp : parseParenStart l = none := Option.isNone_iff_eq_none.mp hok1.1
    rcases Option.isSome_iff_exists.mp hok1.2 with ⟨o, ho⟩
    rw [parsePy_cons, hpp]
    dsimp only
    rw [ho, ih hf.2, flatTreeOf_cons_eq l ls o ho]
    cases o with
    | none => rfl
    | some s => rfl

theorem flatTreeOf_children (lines : List String) :
    ∀ s ∈ flatTreeOf lines, stmtChildren s = [] := by
  intro s hs
  unfold flatTreeOf at hs
  rcases List.mem_filterMap.mp hs with ⟨l, _, hl⟩
  cases hLo : lineOne l with
  | none =>
    simp only [hLo] at hl
    exact Option.noConfusion hl
  | some o =>
    cases o with
    | none =>
      simp only [hLo] at hl
      exact Option.noConfusion hl
    | some st =>
      simp only [hLo] at hl
      injection hl with h1
      rcases lineOne_shape l (some st) hLo with ⟨ho, _⟩ | ⟨fa, _, ho⟩
      · rcases ho with ho | ho
        · exact Option.noConfusion ho
        · injection ho with h2
          rw [← h1, h2]
          rfl
      · injection ho with h2
        rw [← h1, h2]
        rfl

theorem isCandidate_retarget (pyvars : List String) (nv : String) (s : PyStmt) :
    isCandidateAssign pyvars (retargetStmt pyvars nv s) = isCandidateAssign pyvars s := by
  cases s with
  | assign tgts v =>
    show isCandidateAssign pyvars
      (if targetHit pyvars tgts then PyStmt.assign tgts (PyExpr.constStr nv)
       else PyStmt.assign tgts v) = _
    by_cases h : targetHit pyvars tgts = true
    · rw [if_pos h]
      rfl
    · rw [if_neg h]
  | block body => rfl
  | simple => rfl

theorem firstCandidate_map_retarget (pyvars : List String) (nv : String) (tree : List PyStmt)
    (hsome : (tree.find? (isCandidateAssign pyvars)).isSome = true) :
    firstCandidateResult pyvars (tree.map (retargetStmt pyvars nv))
      = Except.ok (PyVal.str nv) := by
  revert hsome
  induction tree with
  | nil => intro hsome; simp at hsome
  | cons s rest ih =>
    intro hsome
    by_cases hc : isCandidateAssign pyvars s = true
    · cases s with
      | assign tgts v =>
        have hth : targetHit pyvars tgts = true := hc
        have hcr : isCandidateAssign pyvars
            (retargetStmt pyvars nv (PyStmt.assign tgts v)) = true := by
          rw [isCandidate_retarget]
          exact hc
        have hre : retargetStmt pyvars nv (PyStmt.assign tgts v)
            = PyStmt.assign tgts (PyExpr.constStr nv) := by
          show (if targetHit pyvars tgts then PyStmt.assign tgts (PyExpr.constStr nv)
            else PyStmt.assign tgts v) = _
          rw [if_pos hth]
        unfold firstCandidateResult
        rw [List.map_cons, List.find?_cons_of_pos _ hcr, hre]
        rfl
      | block body => exact absurd hc (by simp [isCandidateAssign])
      | simple => exact absurd hc (by simp [isCandidateAssign])
    · have hcr : ¬ (isCandidateAssign pyvars (retargetStmt pyvars nv s) = true) := by
        rw [isCandidate_retarget]
        exact hc
      have hsome2 : (rest.find? (isCandidateAssign pyvars)).isSome = true := by
        rw [List.find?_cons_of_neg _ hc] at hsome
        exact hsome
      have hrec := ih hsome2
      unfold firstCandidateResult at hrec ⊢
      rw [List.map_cons, List.find?_cons_of_neg _ hcr]
      exact hrec

theorem flatTree_hasCandidate (pyvars : List String) (lines : List String)
    (hf : flatPyFile lines = true)
    (hany : lines.any (hasCandidateLine pyvars) = true) :
    ((flatTreeOf lines).find? (isCandidateAssign pyvars)).isSome = true := by
  revert hf hany
  induction lines with
  | nil => intro _ hany; simp at hany
  | cons l ls ih =>
    intro hf hany
    simp only [flatPyFile, List.all_cons, Bool.and_eq_true] at hf
    have hok1 := hf.1
    simp only [flatLineOk, Bool.and_eq_true] at hok1
    rcases Option.isSome_iff_exists.mp hok1.2 with ⟨o, ho⟩
    rw [flatTreeOf_cons_eq l ls o ho]
    simp only [List.any_cons, Bool.or_eq_true] at hany
    rcases hany with hcand | hrest
    · unfold hasCandidateLine at hcand
      cases hpf : parseFlatAssign l with
      | none =>
        simp only [hpf] at hcand
        exact Bool.noConfusion hcand
      | some fa =>
        simp only [hpf] at hcand
        rcases lineOne_shape l o ho with ⟨_, hpfn⟩ | ⟨fa2, hpf2, hoeq⟩
        · rw [hpf] at hpfn
          exact Option.noConfusion hpfn
        · rw [hpf] at hpf2
          injection hpf2 with hfa
          subst hoeq
          dsimp only
          have hcassign : isCandidateAssign pyvars
              (PyStmt.assign [PyTarget.name (String.mk fa2.ident)]
                (PyExpr.constStr (String.mk fa2.val))) = true := by
            show targetHit pyvars [PyTarget.name (String.mk fa2.ident)] = true
            rw [targetHit_single, ← hfa]
            exact hcand
          rw [List.find?_cons_of_pos _ hcassign]
          rfl
    · have htail := ih hf.2 hrest
      cases o with
      | none =>
        dsimp only
        exact htail
      | some s =>
        dsimp only
        by_cases hcs : isCandidateAssign pyvars s = true
        · rw [List.find?_cons_of_pos _ hcs]
          rfl
        · rw [List.find?_cons_of_neg _ hcs]
          exact htail

theorem toml_write_read (doc : TomlDoc) (nv : String)
    (hslot : ((lookupPoetryVersion doc).isSome || (lookupProjectVersion doc).isSome) = true) :
    get_pyproject_version "pyproject.toml" (sync_pyproject_version doc nv).1
      = Except.ok (TomlVal.str nv) := by
  rw [sync_pyproject_version_eq]
  by_cases h1 : (lookupPoetryVersion doc).isSome = true
  · rw [if_pos h1]
    have hframe := lookupProject_after_setPoetry doc nv
    by_cases h2 : (lookupProjectVersion doc).isSome = true
    · rw [hframe, if_pos h2]
      unfold get_pyproject_version
      rw [lookupPoetry_after_setProject, lookupPoetry_after_setPoetry doc nv h1]
    · rw [hframe, if_neg h2]
      unfold get_pyproject_version
      rw [lookupPoetry_after_setPoetry doc nv h1]
  · have h1f : (lookupPoetryVersion doc).isSome = false := by
      cases hh : (lookupPoetryVersion doc).isSome
      · rfl
      · exact absurd hh h1
    have h2 : (lookupProjectVersion doc).isSome = true := by
      rw [Bool.or_eq_true] at hslot
      rcases hslot with h | h
      · rw [h1f] at h
        exact Bool.noConfusion h
      · exact h
    rw [if_neg h1, if_pos h2]
    unfold get_pyproject_version
    rw [lookupPoetry_after_setProject]
    cases hlp : lookupPoetryVersion doc with
    | some v2 =>
      rw [hlp] at h1f
      exact Bool.noConfusion h1f
    | none =>
      dsimp only
      rw [lookupProject_after_setProject doc nv h2]

theorem py_write_read (pyvars : List String) (v : Version) (lines : List String)
    (hgood : goodVars pyvars = true) (hv : v.release ≠ [])
    (hf : flatPyFile lines = true)
    (hany : lines.any (hasCandidateLine pyvars) = true) :
    readVersion pyvars (writeContent pyvars v (FileContent.py lines)) = Except.ok v := by
  have hnv := verToString_no_quote v
  have hlines : (sync_pyfile_version pyvars (verToString v) lines).1
      = lines.map (rewriteLine pyvars (verToString v)) := sync_pyfile_lines _ _ lines
  have hf2 : flatPyFile (lines.map (rewriteLine pyvars (verToString v))) = true :=
    flatPyFile_rewrite pyvars (verToString v) lines hgood hf hnv
  have htree : flatTreeOf (lines.map (rewriteLine pyvars (verToString v)))
      = (flatTreeOf lines).map (retargetStmt pyvars (verToString v)) :=
    flatTreeOf_rewrite pyvars (verToString v) lines hgood hf hnv
  have hparse : parsePy (lines.map (rewriteLine pyvars (verToString v)))
      = some (flatTreeOf (lines.map (rewriteLine pyvars (verToString v)))) :=
    parsePy_flat _ hf2
  have hcand := flatTree_hasCandidate pyvars lines hf hany
  have hfc : firstCandidateResult pyvars
      ((flatTreeOf lines).map (retargetStmt pyvars (verToString v)))
      = Except.ok (PyVal.str (verToString v)) :=
    firstCandidate_map_retarget pyvars (verToString v) (flatTreeOf lines) hcand
  have hleaf : ∀ s ∈ flatTreeOf (lines.map (rewriteLine pyvars (verToString v))),
      stmtChildren s = [] := flatTreeOf_children _
  have hgv : get_pyfile_version
      (flatTreeOf (lines.map (rewriteLine pyvars (verToString v)))) pyvars
      = Except.ok (PyVal.str (verToString v)) := by
    unfold get_pyfile_version
    rw [walkStmts_leaf _ hleaf, htree, scanAssigns_eq_firstCandidate]
    exact hfc
  have hrvs : readVersionStr pyvars
      (FileContent.py (lines.map (rewriteLine pyvars (verToString v))))
      = Except.ok (verToString v) := by
    unfold readVersionStr
    simp only [hparse, hgv]
  show readVersion pyvars
    (FileContent.py (sync_pyfile_version pyvars (verToString v) lines).1) = _
  rw [hlines]
  unfold readVersion
  simp only [hrvs, parseVersion_verToString v hv]

theorem writeContent_readVersion (pyvars : List String) (v : Version) (f : FileContent)
    (hgood : goodVars pyvars = true) (hv : v.release ≠ [])
    (hslot : hasVersionSlot pyvars f = true) :
    readVersion pyvars (writeContent pyvars v f) = Except.ok v := by
  cases f with
  | toml doc =>
    have hslot2 : ((lookupPoetryVersion doc).isSome
        || (lookupProjectVersion doc).isSome) = true := hslot
    have hg := toml_write_read doc (verToString v) hslot2
    show readVersion pyvars
      (FileContent.toml (sync_pyproject_version doc (verToString v)).1) = _
    unfold readVersion readVersionStr
    simp only [hg, parseVersion_verToString v hv]
  | json doc =>
    have hg : get_packagejson_version "package.json"
        (sync_package_json_version doc (verToString v))
        = Except.ok (JsonVal.str (verToString v)) := by
      unfold get_packagejson_version sync_package_json_version
      rw [assocFind_dictSet_same]
    show readVersion pyvars
      (FileContent.json (sync_package_json_version doc (verToString v))) = _
    unfold readVersion readVersionStr
    simp only [hg, parseVersion_verToString v hv]
  | py lines =>
    have hslot2 : (flatPyFile lines && lines.any (hasCandidateLine pyvars)) = true := hslot
    rw [Bool.and_eq_true] at hslot2
    exact py_write_read pyvars v lines hgood hv hslot2.1 hslot2.2

theorem firstCandidate_ok_isSome (pyvars : List String) (l : List PyStmt) (r : PyVal)
    (h : firstCandidateResult pyvars l = Except.ok r) :
    (l.find? (isCandidateAssign pyvars)).isSome = true := by
  unfold firstCandidateResult at h
  cases hf : l.find? (isCandidateAssign pyvars) with
  | none =>
    simp only [hf] at h
    exact Except.noConfusion h
  | some s => rfl

theorem hasCandidate_of_flatTree (pyvars : List String) (lines : List String)
    (hf : flatPyFile lines = true)
    (h : ((flatTreeOf lines).find? (isCandidateAssign pyvars)).isSome = true) :
    lines.any (hasCandidateLine pyvars) = true := by
  revert hf h
  induction lines with
  | nil => intro _ h; simp [flatTreeOf] at h
  | cons l ls ih =>
    intro hf h
    simp only [flatPyFile, List.all_cons, Bool.and_eq_true] at hf
    have hok1 := hf.1
    simp only [flatLineOk, Bool.and_eq_true] at hok1
    rcases Option.isSome_iff_exists.mp hok1.2 with ⟨o, ho⟩
    rw [flatTreeOf_cons_eq l ls o ho] at h
    simp only [List.any_cons, Bool.or_eq_true]
    rcases lineOne_shape l o ho with ⟨hsh, hpfn⟩ | ⟨fa, hpf, hoeq⟩
    · rcases hsh with rfl | rfl
      · dsimp only at h
        exact Or.inr (ih hf.2 h)
      · dsimp only at h
        rw [List.find?_cons_of_neg _ (by simp [isCandidateAssign])] at h
        exact Or.inr (ih hf.2 h)
    · subst hoeq
      dsimp only at h
      by_cases hc : pyvars.contains (String.mk fa.ident) = true
      · left
        unfold hasCandidateLine
        simp only [hpf]
        exact hc
      · have hcn : ¬ (isCandidateAssign pyvars
            (PyStmt.assign [PyTarget.name (String.mk fa.ident)]
              (PyExpr.constStr (String.mk fa.val))) = true) := by
          show ¬ (targetHit pyvars [PyTarget.name (String.mk fa.ident)] = true)
          rw [targetHit_single]
          exact hc
        rw [List.find?_cons_of_neg _ hcn] at h
        exact Or.inr (ih hf.2 h)

theorem slot_of_read (pyvars : List String) (f : FileContent) (v0 : Version)
    (hflatf : ∀ lines, f = FileContent.py lines → flatPyFile lines = true)
    (hread : readVersion pyvars f = Except.ok v0) :
    hasVersionSlot pyvars f = true := by
  unfold readVersion at hread
  cases hs : readVersionStr pyvars f with
  | error e =>
    simp only [hs] at hread
    exact Except.noConfusion hread
  | ok s =>
    cases f with
    | toml doc =>
      unfold readVersionStr at hs
      show ((lookupPoetryVersion doc).isSome || (lookupProjectVersion doc).isSome) = true
      unfold get_pyproject_version at hs
      cases hp : lookupPoetryVersion doc with
      | some v2 => rfl
      | none =>
        simp only [hp] at hs
        cases hq : lookupProjectVersion doc with
        | some v2 => rfl
        | none =>
          simp only [hq] at hs
          exact Except.noConfusion hs
    | json doc =>
      unfold readVersionStr at hs
      show (assocFind doc "version").isSome = true
      unfold get_packagejson_version at hs
      cases ha : assocFind doc "version" with
      | some v2 => rfl
      | none =>
        simp only [ha] at hs
        exact Except.noConfusion hs
    | py lines =>
      have hf : flatPyFile lines = true := hflatf lines rfl
      unfold readVersionStr at hs
      simp only [parsePy_flat lines hf] at hs
      have hgv : ∃ r, get_pyfile_version (flatTreeOf lines) pyvars = Except.ok r := by
        cases hg : get_pyfile_version (flatTreeOf lines) pyvars with
        | ok r => exact ⟨r, rfl⟩
        | error e =>
          simp only [hg] at hs
          cases e <;> exact Except.noConfusion hs
      rcases hgv with ⟨r, hg⟩
      have hfc : firstCandidateResult pyvars (flatTreeOf lines) = Except.ok r := by
        rw [← scanAssigns_eq_firstCandidate,
          ← walkStmts_leaf (flatTreeOf lines) (flatTreeOf_children lines)]
        exact hg
      have hfind := firstCandidate_ok_isSome pyvars (flatTreeOf lines) r hfc
      show (flatPyFile lines && lines.any (hasCandidateLine pyvars)) = true
      rw [hf, hasCandidate_of_flatTree pyvars lines hf hfind]
      rfl

theorem readVersion_release_ne_nil (pyvars : List String) (f : FileContent) (v : Version)
    (h : readVersion pyvars f = Except.ok v) : v.release ≠ [] := by
  unfold readVersion at h
  cases hs : readVersionStr pyvars f with
  | error e =>
    simp only [hs] at h
    exact Except.noConfusion h
  | ok s =>
    simp only [hs] at h
    cases hp : parseVersion s with
    | none =>
      simp only [hp] at h
      exact Except.noConfusion h
    | some v2 =>
      simp only [hp] at h
      injection h with h1
      rw [← h1]
      exact parseVersion_release_ne_nil s v2 hp

theorem collect_map_read (pyvars : List String) (files : List FileContent)
    (rep : List (FileContent × Version))
    (h : collectVersions pyvars files = Except.ok rep) :
    rep.map Prod.fst = files ∧ ∀ p ∈ rep, readVersion pyvars p.1 = Except.ok p.2 := by
  revert rep
  induction files with
  | nil =>
    intro rep h
    injection h with h1
    rw [← h1]
    exact ⟨rfl, by intro p hp; cases hp⟩
  | cons f fs ih =>
    intro rep h
    unfold collectVersions at h
    cases hr : readVersion pyvars f with
    | error e =>
      simp only [hr] at h
      exact Except.noConfusion h
    | ok v =>
      simp only [hr] at h
      cases hc : collectVersions pyvars fs with
      | error e =>
        simp only [hc] at h
        exact Except.noConfusion h
      | ok rest =>
        simp only [hc] at h
        injection h with h1
        rw [← h1]
        rcases ih rest hc with ⟨hmap, hall⟩
        constructor
        · rw [List.map_cons, hmap]
        · intro p hp
          rcases List.mem_cons.mp hp with rfl | hp2
          · exact hr
          · exact hall p hp2

theorem collectVersions_map (pyvars : List String) (rep : List (FileContent × Version))
    (g : FileContent × Version → FileContent) (w : FileContent × Version → Version)
    (h : ∀ p ∈ rep, readVersion pyvars (g p) = Except.ok (w p)) :
    collectVersions pyvars (rep.map g) = Except.ok (rep.map (fun p => (g p, w p))) := by
  revert h
  induction rep with
  | nil => intro _; rfl
  | cons p rest ih =>
    intro h
    rw [List.map_cons, List.map_cons]
    unfold collectVersions
    simp only [h p (List.mem_cons_self p rest),
      ih (fun q hq => h q (List.mem_cons_of_mem p hq))]

theorem pipelineTarget_ne_nil (rep : List (FileContent × Version))
    (hne : rep ≠ []) (hall : ∀ p ∈ rep, p.2.release ≠ []) :
    (pipelineTarget rep).release ≠ [] := by
  cases rep with
  | nil => exact absurd rfl hne
  | cons p rest =>
    obtain ⟨f, v⟩ := p
    show (pyMax v (rest.map (fun p => p.2))).release ≠ []
    rcases pyMax_mem_or_self (rest.map (fun p => p.2)) v with h | h
    · rw [h]
      exact hall (f, v) (List.mem_cons_self (f, v) rest)
    · rcases List.mem_map.mp h with ⟨q, hq, hqe⟩
      rw [← hqe]
      exact hall q (List.mem_cons_of_mem (f, v) hq)

theorem pipelineTarget_key (rep : List (FileContent × Version)) (t : Version)
    (hne : rep ≠ [])
    (hall : ∀ p ∈ rep, verEq p.2 t = true) :
    verEq (pipelineTarget rep) t = true := by
  cases rep with
  | nil => exact absurd rfl hne
  | cons p rest =>
    obtain ⟨f, v⟩ := p
    show verEq (pyMax v (rest.map (fun p => p.2))) t = true
    rcases pyMax_mem_or_self (rest.map (fun p => p.2)) v with h | h
    · rw [h]
      exact hall (f, v) (List.mem_cons_self (f, v) rest)
    · rcases List.mem_map.mp h with ⟨q, hq, hqe⟩
      rw [← hqe]
      exact hall q (List.mem_cons_of_mem (f, v) hq)

theorem runSyncWrites_of_allEq (pyvars : List String) (files2 : List FileContent)
    (rep2 : List (FileContent × Version)) (t : Version)
    (hcol : collectVersions pyvars files2 = Except.ok rep2)
    (hne : rep2 ≠ [])
    (hall : ∀ p ∈ rep2, verEq p.2 t = true) :
    runSyncWrites pyvars files2 = Except.ok [] := by
  unfold runSyncWrites
  cases rep2 with
  | nil => exact absurd rfl hne
  | cons r2 rest2 =>
    simp only [hcol]
    have ht2 : verEq (pipelineTarget (r2 :: rest2)) t = true :=
      pipelineTarget_key (r2 :: rest2) t (by simp) hall
    have hwt : writeTargets (pipelineTarget (r2 :: rest2)) (r2 :: rest2) = [] := by
      unfold writeTargets
      have hfil : (r2 :: rest2).filter
          (fun p => !(verEq p.2 (pipelineTarget (r2 :: rest2)))) = [] := by
        rw [List.filter_eq_nil_iff]
        intro p hp
        have h1 : verKey p.2 = verKey t := (verEq_iff_key _ _).mp (hall p hp)
        have h2 : verKey (pipelineTarget (r2 :: rest2)) = verKey t :=
          (verEq_iff_key _ _).mp ht2
        have h3 : verEq p.2 (pipelineTarget (r2 :: rest2)) = true :=
          (verEq_iff_key _ _).mpr (by rw [h1, h2])
        simp [h3]
      rw [hfil]
      rfl
    rw [hwt]

/-- C6 (amended): for every Version with a nonempty release, every list of
candidate names as the CLI produces them (nonempty identifiers), and every
file that already carries a version slot — a TOML document with
tool.poetry.version or project.version, a JSON document with a top-level
version key, or a source file of the single-line string-assignment fragment
with a candidate-variable assignment — the kind's write followed by the
kind's read yields the written version.  On source files outside the
single-line fragment the round trip can fail, because the text-based
writer and the syntax-tree-based reader disagree on multi-line
assignments. -/
theorem c6_theorem (pyvars : List String) (v : Version) (f : FileContent)
    (hgood : goodVars pyvars = true) (hv : v.release ≠ [])
    (hslot : hasVersionSlot pyvars f = true) :
    readVersion pyvars (writeContent pyvars v f) = Except.ok v :=
  writeContent_readVersion pyvars v f hgood hv hslot

/-- C6 witness: writing 2.0.0 into a one-line source file holding a
candidate assignment and reading it back yields 2.0.0. -/
theorem c6_witness :
    goodVars defVars = true
    ∧ (Version.mk [2, 0, 0]).release ≠ []
    ∧ hasVersionSlot defVars (FileContent.py ["__version__ = \x222.0.0\x22  # v"]) = true
    ∧ readVersion defVars (writeContent defVars (Version.mk [2, 0, 0])
        (FileContent.py ["__version__ = \x222.0.0\x22  # v"]))
      = Except.ok (Version.mk [2, 0, 0]) :=
  ⟨by decide, by decide, by decide,
   c6_theorem defVars (Version.mk [2, 0, 0])
     (FileContent.py ["__version__ = \x222.0.0\x22  # v"])
     (by decide) (by decide) (by decide)⟩

/-- C6 counterexample: a parsable source file holding a parenthesized
two-line candidate assignment of 0.5.0 before a single-line candidate
assignment of 0.4.0.  The writer's line pattern only rewrites the
single-line assignment, while the reader returns the first assignment of
the parsed tree, so write 2.0.0 followed by read yields 0.5.0, not
2.0.0. -/
theorem c6_counterexample :
    pyMixed3.any (hasCandidateLine defVars) = true
    ∧ readVersion defVars (writeContent defVars (Version.mk [2, 0, 0])
        (FileContent.py pyMixed3)) = Except.ok (Version.mk [0, 5, 0])
    ∧ readVersion defVars (writeContent defVars (Version.mk [2, 0, 0])
        (FileContent.py pyMixed3)) ≠ Except.ok (Version.mk [2, 0, 0]) :=
  ⟨by decide, rfl, by decide⟩

/-- C7 (amended): for every candidate-name list of nonempty identifiers and
every file set whose source files lie in the single-line fragment, when a
sync run succeeds the second run over the files it produced performs no
writes: every re-collected version is packaging-equal to the new highest
version, so the write set of the second run is empty. -/
theorem c7_theorem (pyvars : List String) (files files2 : List FileContent)
    (hgood : goodVars pyvars = true)
    (hflat : ∀ lines, FileContent.py lines ∈ files → flatPyFile lines = true)
    (hrun : runSync pyvars files = Except.ok files2) :
    runSyncWrites pyvars files2 = Except.ok [] := by
  unfold runSync at hrun
  cases hc : collectVersions pyvars files with
  | error e =>
    simp only [hc] at hrun
    exact Except.noConfusion hrun
  | ok rep =>
    simp only [hc] at hrun
    cases rep with
    | nil => exact Except.noConfusion hrun
    | cons r rest =>
      have hrun2 : Except.ok (syncFiles pyvars (pipelineTarget (r :: rest)) (r :: rest))
          = Except.ok files2 := hrun
      injection hrun2 with h2
      subst h2
      rcases collect_map_read pyvars files (r :: rest) hc with ⟨hmap, hall⟩
      have hflat2 : ∀ lines, FileContent.py lines ∈ (r :: rest).map Prod.fst →
          flatPyFile lines = true := by
        rw [hmap]
        exact hflat
      have hrelne : ∀ p ∈ r :: rest, p.2.release ≠ [] :=
        fun p hp => readVersion_release_ne_nil pyvars p.1 p.2 (hall p hp)
      have htne : (pipelineTarget (r :: rest)).release ≠ [] :=
        pipelineTarget_ne_nil (r :: rest) (by simp) hrelne
      have hper : ∀ p ∈ r :: rest,
          readVersion pyvars (if verEq p.2 (pipelineTarget (r :: rest)) then p.1
            else writeContent pyvars (pipelineTarget (r :: rest)) p.1)
          = Except.ok (if verEq p.2 (pipelineTarget (r :: rest)) then p.2
            else pipelineTarget (r :: rest)) := by
        intro p hp
        by_cases hq : verEq p.2 (pipelineTarget (r :: rest)) = true
        · rw [if_pos hq, if_pos hq]
          exact hall p hp
        · rw [if_neg hq, if_neg hq]
          refine writeContent_readVersion pyvars (pipelineTarget (r :: rest)) p.1 hgood htne ?_
          refine slot_of_read pyvars p.1 p.2 ?_ (hall p hp)
          intro lines hl
          exact hflat2 lines (List.mem_map.mpr ⟨p, hp, hl⟩)
      have hcol2 := collectVersions_map pyvars (r :: rest)
        (fun p => if verEq p.2 (pipelineTarget (r :: rest)) then p.1
          else writeContent pyvars (pipelineTarget (r :: rest)) p.1)
        (fun p => if verEq p.2 (pipelineTarget (r :: rest)) then p.2
          else pipelineTarget (r :: rest))
        hper
      have hcol3 : collectVersions pyvars
          (syncFiles pyvars (pipelineTarget (r :: rest)) (r :: rest))
          = Except.ok ((r :: rest).map (fun p =>
            ((if verEq p.2 (pipelineTarget (r :: rest)) then p.1
              else writeContent pyvars (pipelineTarget (r :: rest)) p.1),
             (if verEq p.2 (pipelineTarget (r :: rest)) then p.2
              else pipelineTarget (r :: rest))))) := hcol2
      refine runSyncWrites_of_allEq pyvars
        (syncFiles pyvars (pipelineTarget (r :: rest)) (r :: rest))
        ((r :: rest).map (fun p =>
          ((if verEq p.2 (pipelineTarget (r :: rest)) then p.1
            else writeContent pyvars (pipelineTarget (r :: rest)) p.1),
           (if verEq p.2 (pipelineTarget (r :: rest)) then p.2
            else pipelineTarget (r :: rest)))))
        (pipelineTarget (r :: rest)) hcol3 (by simp) ?_
      intro p hp
      rcases List.mem_map.mp hp with ⟨q, hq2, hqe⟩
      rw [← hqe]
      dsimp only
      by_cases hqq : verEq q.2 (pipelineTarget (r :: rest)) = true
      · rw [if_pos hqq]
        exact hqq
      · rw [if_neg hqq]
        exact verEq_refl _

/-- C7 witness: a sync run over a JSON file at 1.2.3 and a one-line source
file at 1.1.0 rewrites the source file to 1.2.3, and the second run over
the produced files performs no writes. -/
theorem c7_witness :
    goodVars defVars = true
    ∧ runSync defVars exFlatFiles
        = Except.ok [FileContent.json [("version", JsonVal.str "1.2.3")],
            FileContent.py ["__version__ = \x221.2.3\x22"]]
    ∧ runSyncWrites defVars
        [FileContent.json [("version", JsonVal.str "1.2.3")],
         FileContent.py ["__version__ = \x221.2.3\x22"]]
        = Except.ok [] :=
  ⟨by decide, rfl,
   c7_theorem defVars exFlatFiles
     [FileContent.json [("version", JsonVal.str "1.2.3")],
      FileContent.py ["__version__ = \x221.2.3\x22"]]
     (by decide)
     (by
       intro lines hl
       cases hl with
       | tail _ hl2 =>
         cases hl2 with
         | head => decide
         | tail _ hl3 => cases hl3)
     rfl⟩

/-- C7 counterexample: a JSON file at 2.0.0 and a source file holding only
a parenthesized two-line candidate assignment at 0.5.0.  The first sync
run succeeds but its write to the source file does not land (no line
matches the pattern), so the run returns the files unchanged and the
second run still invokes a writer: sync is not idempotent. -/
theorem c7_counterexample :
    runSync defVars exMixedFiles = Except.ok exMixedFiles
    ∧ runSyncWrites defVars exMixedFiles
        = Except.ok [FileContent.py ["version = (", "\x220.5.0\x22)"]]
    ∧ runSyncWrites defVars exMixedFiles ≠ Except.ok [] := by
  refine ⟨rfl, rfl, ?_⟩
  intro h
  have h2 : ([FileContent.py ["version = (", "\x220.5.0\x22)"]] : List FileContent) = [] :=
    Except.ok.inj ((show Except.ok [FileContent.py ["version = (", "\x220.5.0\x22)"]]
      = runSyncWrites defVars exMixedFiles from rfl).trans h)
  exact List.noConfusion h2

end VersionSync
